import Mathlib

/-!
# Verification of the Bayesian-network exact-inference scripts

Shallow embedding of `002_Probabilidad/002_RazonamientoProbabilistico/005_ElimVariables.py`
(factors, factor product, marginalisation, the variable-elimination solver) and of
`004_InterEnumeracion.py` (inference by enumeration), together with proofs and
refutations of the specified properties.

Modelling conventions:
* Python floats are modelled as exact rationals (`ℚ`); the decimal literals of the
  source are exact in `ℚ`, so "within floating-point tolerance" statements become
  exact equalities.
* Python dicts are modelled as association lists in insertion order: assigning to an
  existing key replaces the value in place, assigning to a fresh key appends.
* Python sets are modelled as duplicate-free lists in first-insertion order.  CPython's
  set iteration order is unspecified; results that depend on it are flagged where they
  arise.
* Python runtime errors (`IndexError`, `ZeroDivisionError`) are modelled with `Except`.
-/

namespace VE

/-- First-match lookup in an association list: Python `d[k]` / `d.get(k)`. -/
def dget {α β : Type} [DecidableEq α] (d : List (α × β)) (k : α) : Option β :=
  match d with
  | [] => none
  | (k', v) :: rest => if k' = k then some v else dget rest k

/-- Python `d.get(k, default)`. -/
def dgetD {α β : Type} [DecidableEq α] (d : List (α × β)) (k : α) (v0 : β) : β :=
  (dget d k).getD v0

/-- Python `d[k] = v`: replace the value at the key's existing position, else append. -/
def dset {α β : Type} [DecidableEq α] (d : List (α × β)) (k : α) (v : β) : List (α × β) :=
  match d with
  | [] => [(k, v)]
  | (k', v') :: rest => if k' = k then (k, v) :: rest else (k', v') :: dset rest k v

/-- Insertion into the deterministic model of a Python `set`: duplicate-free list in
first-insertion order. -/
def sinsert {α : Type} [DecidableEq α] (l : List α) (a : α) : List α :=
  if a ∈ l then l else l ++ [a]

/-- Insert into a strictly sorted duplicate-free list of strings, keeping it so. -/
def sortedInsert (a : String) : List String → List String
  | [] => [a]
  | b :: rest =>
    if a < b then a :: b :: rest
    else if a = b then b :: rest
    else b :: sortedInsert a rest

/-- Python `sorted(set(l))` for strings: the strictly sorted list of the distinct
elements of `l` (lexicographic by code point, as in CPython). -/
def sortedDedup (l : List String) : List String := l.foldr sortedInsert []

/-- `itertools.product` over a list of domains: leftmost component varies slowest. -/
def gridOf : List (List String) → List (List String)
  | [] => [[]]
  | dom :: rest => dom.flatMap (fun x => (gridOf rest).map (fun k => x :: k))

/-- A factor (`class Factor`): an ordered scope of variable names plus a table mapping
assignment tuples (in scope order) to weights. -/
structure Factor where
  vars : List String
  cpt : List (List String × ℚ)
  deriving Repr, DecidableEq

/-- One step of the source's domain scan: add the observed value `p.2` to the value
set of variable `p.1` (`var_domains[var].add(assignment[i])`). -/
def domAdd (doms : List (String × List String)) (p : String × String) :
    List (String × List String) :=
  dset doms p.1 (sinsert (dgetD doms p.1 []) p.2)

/-- Scan the keys of one table, adding at each scope position the observed value for
that position's variable.  (The source indexes `assignment[i]` while enumerating the
scope; for keys of the scope's arity — the only case arising below — this agrees with
zipping scope and key.) -/
def scanCpt (scope : List String) (doms : List (String × List String))
    (cpt : List (List String × ℚ)) : List (String × List String) :=
  cpt.foldl (fun doms e => (scope.zip e.1).foldl domAdd doms) doms

/-- The per-variable value sets inferred while multiplying two factors (`var_domains`
in the source): initialise an empty set per union variable, then scan the keys of
`factor1` and of `factor2`. -/
def varDoms (newVars : List String) (factor1 factor2 : Factor) :
    List (String × List String) :=
  scanCpt factor2.vars
    (scanCpt factor1.vars (newVars.map (fun v => (v, ([] : List String)))) factor1.cpt)
    factor2.cpt

/-- `tuple(assignment_dict[var] for var in scope)`: project a joint assignment over
`newVars` onto a factor's scope via the dict `zip(new_vars, assignment)`.  (The source
would raise `KeyError` for a scope variable outside `newVars`; that is unreachable
because `newVars` is built as the union of the two scopes.) -/
def projKey (newVars : List String) (assignment : List String) (scope : List String) :
    List String :=
  scope.map (fun v => dgetD (newVars.zip assignment) v "")

/-- The union scope of a product: `tuple(sorted(list(vars1.union(vars2))))`. -/
def mulVars (factor1 factor2 : Factor) : List String :=
  sortedDedup (factor1.vars ++ factor2.vars)

/-- The joint assignments enumerated by the product:
`itertools.product(*(var_domains[var] for var in new_vars))`. -/
def mulGrid (factor1 factor2 : Factor) : List (List String) :=
  gridOf ((mulVars factor1 factor2).map
    (fun v => dgetD (varDoms (mulVars factor1 factor2) factor1 factor2) v []))

/-- `multiply_factors` from the source: scope is the sorted union of the two scopes,
the table enumerates every joint assignment over the per-variable observed domains, and
a key absent from an input table contributes weight `0` (`cpt.get(key, 0)`). -/
def multiply_factors (factor1 factor2 : Factor) : Factor :=
  Factor.mk (mulVars factor1 factor2)
    ((mulGrid factor1 factor2).map (fun k =>
      (k, dgetD factor1.cpt (projKey (mulVars factor1 factor2) k factor1.vars) 0 *
          dgetD factor2.cpt (projKey (mulVars factor1 factor2) k factor2.vars) 0)))

/-- `sum_out` from the source: marginalise a variable out of a factor; a no-op when the
variable is not in scope. -/
def sum_out (factor : Factor) (varName : String) : Factor :=
  if varName ∈ factor.vars then
    let newVars := factor.vars.filter (fun v => v ≠ varName)
    let varIndex := List.indexOf varName factor.vars
    let newCpt := factor.cpt.foldl (fun acc e =>
      let newKey := e.1.eraseIdx varIndex
      dset acc newKey (dgetD acc newKey 0 + e.2)) []
    Factor.mk newVars newCpt
  else factor

/-- Step 1 of `infer` for one factor: keep exactly the table entries whose value at
every scope position of an evidence variable equals that variable's observed value
(inconsistent entries are dropped, not zeroed); the scope is unchanged. -/
def reduceFactor (f : Factor) (evidence : List (String × String)) : Factor :=
  let newCpt := f.cpt.foldl (fun acc e =>
    let consistent := (f.vars.zip e.1).all (fun p =>
      match dget evidence p.1 with
      | none => true
      | some w => w == p.2)
    if consistent then dset acc e.1 e.2 else acc) []
  Factor.mk f.vars newCpt

/-- The runtime errors the inference routine can raise. -/
inductive PyErr where
  | indexError
  | divByZero
  deriving Repr, DecidableEq

/-- One pass of the elimination loop for variable `v`: partition the working factors,
multiply all factors containing `v` left-associatively starting from
`factors_with_var[0]` — an `IndexError` when no factor contains `v` — then sum `v`
out and append the result to the factors not containing `v`. -/
def elimStep (working : List Factor) (v : String) : Except PyErr (List Factor) :=
  let factorsWithVar := working.filter (fun f => decide (v ∈ f.vars))
  let without := working.filter (fun f => decide (v ∉ f.vars))
  match factorsWithVar with
  | [] => .error .indexError
  | f0 :: rest => .ok (without ++ [sum_out (rest.foldl multiply_factors f0) v])

/-- Steps 1–2 of `infer`: evidence reduction of every factor, then the elimination
loop over the caller-supplied order. -/
def runElim (factors : List Factor) (evidence : List (String × String))
    (order : List String) : Except PyErr (List Factor) :=
  order.foldlM elimStep (factors.map (fun f => reduceFactor f evidence))

/-- `sum(final_factor.cpt.values())`. -/
def sumValues (cpt : List (List String × ℚ)) : ℚ := (cpt.map (fun e => e.2)).sum

/-- One entry of step 3's comprehension `{key[0]: val / total for ...}`: `key[0]`
raises `IndexError` on an empty tuple and the division raises `ZeroDivisionError`
when `total` is zero. -/
def normStep (total : ℚ) (acc : List (String × ℚ)) (e : List String × ℚ) :
    Except PyErr (List (String × ℚ)) :=
  match e.1 with
  | [] => .error .indexError
  | q :: _ =>
    if total = 0 then .error .divByZero
    else .ok (dset acc q (e.2 / total))

/-- Step 3's comprehension, entry by entry in table order; colliding first components
overwrite. -/
def normalize (cpt : List (List String × ℚ)) (total : ℚ) :
    Except PyErr (List (String × ℚ)) :=
  cpt.foldlM (normStep total) []

/-- `VariableEliminationSolver.infer` from the source.  The query variable is never
read by the routine: the returned mapping is keyed by the first component of each key
of the final factor. -/
def infer (factors : List Factor) (_queryVar : String)
    (evidence : List (String × String)) (order : List String) :
    Except PyErr (List (String × ℚ)) := do
  let ws ← runElim factors evidence order
  match ws with
  | [] => .error .indexError
  | g0 :: rest =>
    let finalFactor := rest.foldl multiply_factors g0
    normalize finalFactor.cpt (sumValues finalFactor.cpt)

/-- Read a probability off a returned mapping, `0` for an absent value (the missing-key
convention of the factor tables). -/
def getValue (d : List (String × ℚ)) (q : String) : ℚ := dgetD d q 0

/-- The model defined inline in the source file (its `factors` list). -/
def demoFactors : List Factor :=
  [ Factor.mk ["D"] [(["Alta"], 6/10), (["Baja"], 4/10)],
    Factor.mk ["I"] [(["Alta"], 7/10), (["Baja"], 3/10)],
    Factor.mk ["I", "L"]
      [(["Alta", "Fuerte"], 8/10), (["Alta", "Débil"], 2/10),
       (["Baja", "Fuerte"], 3/10), (["Baja", "Débil"], 7/10)],
    Factor.mk ["D", "I", "G"]
      [(["Alta", "Alta", "A"], 3/10), (["Alta", "Alta", "B"], 7/10),
       (["Alta", "Baja", "A"], 5/100), (["Alta", "Baja", "B"], 95/100),
       (["Baja", "Alta", "A"], 9/10), (["Baja", "Alta", "B"], 1/10),
       (["Baja", "Baja", "A"], 5/10), (["Baja", "Baja", "B"], 5/10)] ]

end VE

namespace Enum

/-- A conditional probability table of `MotorDeInferencia` (one entry of the `cpts`
dict): the source stores, in a single Python dict, the `'valores'` list together with
either value→probability entries (root node) or parents-configuration→(value→probability)
entries (node with parents); the two shapes are separated here into two constructors. -/
inductive CPT where
  | root (valores : List String) (probs : List (String × ℚ))
  | cond (valores : List String) (table : List (List String × List (String × ℚ)))
  deriving Repr, DecidableEq

/-- The `'valores'` list of a CPT. -/
def CPT.valores : CPT → List String
  | .root vs _ => vs
  | .cond vs _ => vs

/-- The network structure handed to `MotorDeInferencia.__init__`. -/
structure Red where
  nodos : List String
  padres : List (String × List String)
  cpts : List (String × CPT)
  deriving Repr, DecidableEq

/-- `_obtener_probabilidad`: for a root node read `cpts[var][valor]`; otherwise build
the parents' configuration tuple from the evidence and read
`cpts[var][configuracion][valor]`.  Python `KeyError` (missing node, missing parent
value in the evidence, missing table row, or a CPT of the wrong shape) is `none`. -/
def obtener (red : Red) (varName valor : String)
    (evidencia : List (String × String)) : Option ℚ :=
  match VE.dget red.padres varName with
  | none => none
  | some ps =>
    match VE.dget red.cpts varName, ps with
    | some (.root _ probs), [] => VE.dget probs valor
    | some (.cond _ table), _ :: _ => do
        let config ← ps.mapM (fun p => VE.dget evidencia p)
        let row ← VE.dget table config
        VE.dget row valor
    | _, _ => none

/-- `_enumerar_todo`: recursively sum the probabilities of all assignments of the
hidden variables; a variable already in the evidence contributes its probability as a
plain product factor. -/
def enumerar (red : Red) : List String → List (String × String) → Option ℚ
  | [], _ => some 1
  | primera :: resto, evidencia =>
    match VE.dget evidencia primera with
    | some valorAsignado => do
        let prob ← obtener red primera valorAsignado evidencia
        let recur ← enumerar red resto evidencia
        pure (prob * recur)
    | none => do
        let cpt ← VE.dget red.cpts primera
        let sumandos ← cpt.valores.mapM (fun valor => do
          let evidenciaExtendida := VE.dset evidencia primera valor
          let prob ← obtener red primera valor evidenciaExtendida
          let recur ← enumerar red resto evidenciaExtendida
          pure (prob * recur))
        pure sumandos.sum

/-- `consultar`: compute the unnormalised weight of each value of the query variable by
full enumeration, then normalise.  A zero total (Python `ZeroDivisionError`) and any
`KeyError` are `none`. -/
def consultar (red : Red) (varConsulta : String)
    (evidencia : List (String × String)) : Option (List (String × ℚ)) := do
  let cpt ← VE.dget red.cpts varConsulta
  let pairs ← cpt.valores.mapM (fun valorConsulta => do
    let evidenciaExtendida := VE.dset evidencia varConsulta valorConsulta
    let p ← enumerar red red.nodos evidenciaExtendida
    pure (valorConsulta, p))
  let distribucionQ := pairs.foldl (fun acc e => VE.dset acc e.1 e.2) []
  let total := (distribucionQ.map (fun e => e.2)).sum
  if total = 0 then none
  else some (distribucionQ.map (fun e => (e.1, e.2 / total)))

/-- `ESTRUCTURA_ALARMA` from the source: the chain Robo → Alarma → JuanLlama. -/
def alarma : Red :=
  Red.mk ["Robo", "Alarma", "JuanLlama"]
    [("Robo", []), ("Alarma", ["Robo"]), ("JuanLlama", ["Alarma"])]
    [ ("Robo", .root ["Si", "No"] [("Si", 0.001), ("No", 0.999)]),
      ("Alarma", .cond ["Si", "No"]
        [(["Si"], [("Si", 0.95), ("No", 0.05)]),
         (["No"], [("Si", 0.01), ("No", 0.99)])]),
      ("JuanLlama", .cond ["Si", "No"]
        [(["Si"], [("Si", 0.90), ("No", 0.10)]),
         (["No"], [("Si", 0.05), ("No", 0.95)])]) ]

end Enum

namespace VE

/-- All variable names occurring in the scopes of a list of factors. -/
def varsOfL (fs : List Factor) : List String := fs.flatMap (fun f => f.vars)

/-- The values observed for variable `v` across the keys of `f`'s table (the source
never declares domains; they are reconstructed by scanning table keys). -/
def observedVals (f : Factor) (v : String) : List String :=
  f.cpt.flatMap (fun e =>
    (f.vars.zip e.1).filterMap (fun p => if p.1 = v then some p.2 else none))

/-- The distinct variables of a model that are neither the query variable nor evidence
variables: a valid elimination order is exactly a permutation of this list. -/
def hiddenVars (fs : List Factor) (queryVar : String)
    (evidence : List (String × String)) : List String :=
  (varsOfL fs).dedup.filter (fun v => decide (v ≠ queryVar) && decide (dget evidence v = none))

/-- Zero-extension semantics of a factor: the weight of a total assignment is the
stored weight of its projection onto the scope, `0` for an absent key. -/
def evalF (f : Factor) (a : String → String) : ℚ := dgetD f.cpt (f.vars.map a) 0

/-- Product of the zero-extension semantics of a list of factors. -/
def prodEval (fs : List Factor) (a : String → String) : ℚ :=
  (fs.map (fun f => evalF f a)).prod

/-- Point update of an assignment. -/
def upd (a : String → String) (v x : String) : String → String :=
  fun w => if w = v then x else a w

/-- Iterated sum of `g` over all assignments of the listed variables, values drawn
from `D`. -/
def sumOver (D : String → Finset String) : List String → ((String → String) → ℚ) →
    (String → String) → ℚ
  | [], g, a => g a
  | v :: vs, g, a => ∑ x ∈ D v, sumOver D vs g (upd a v x)

/-- Well-formedness of a factor, the invariant maintained by the source's data model
(Python dicts have distinct keys; every key tuple has the scope's arity; the scope
has no duplicate variables). -/
def WF (f : Factor) : Prop :=
  f.vars.Nodup ∧ (f.cpt.map (fun e => e.1)).Nodup ∧
    ∀ e ∈ f.cpt, e.1.length = f.vars.length

instance (f : Factor) : Decidable (WF f) := by unfold WF; infer_instance

/-- Every value observed for `v` in `f`'s table lies in `S`. -/
def ObsLE (f : Factor) (v : String) (S : Finset String) : Prop :=
  ∀ e ∈ f.cpt, ∀ x, (v, x) ∈ f.vars.zip e.1 → x ∈ S

/-- The observed values of `v` across a whole list of factors, as a finite set. -/
def obsSet (fs : List Factor) (v : String) : Finset String :=
  (fs.flatMap (fun f => observedVals f v)).toFinset

/-- A model whose `infer` results depend on the elimination order: the evidence
variable `A` stays in the final factor's scope, so the returned mapping is keyed by
`A`'s value and colliding keys are resolved by table iteration order. -/
def orderDepFactors : List Factor :=
  [ Factor.mk ["A"] [(["a"], 1/2), (["z"], 1/2)],
    Factor.mk ["Q", "X"]
      [(["q1", "x1"], 1/10), (["q1", "x2"], 2/10),
       (["q2", "x1"], 3/10), (["q2", "x2"], 4/10)],
    Factor.mk ["Q", "Y"]
      [(["q2", "y1"], 1/4), (["q2", "y2"], 1/4),
       (["q1", "y1"], 1/4), (["q1", "y2"], 1/4)] ]

/-- A model and evidence of probability zero: the observed value `e2` appears in no
table row, so evidence reduction empties the second factor's table. -/
def zeroEvFactors : List Factor :=
  [ Factor.mk ["Q"] [(["q1"], 6/10), (["q2"], 4/10)],
    Factor.mk ["E", "Q"] [(["e1", "q1"], 1), (["e1", "q2"], 1)] ]

/-- A one-factor model whose only table entry has weight zero: the normalisation total
is `0` with a nonempty final table. -/
def zeroWeightFactors : List Factor := [Factor.mk ["Q"] [(["q1"], 0)]]

/-! ### Lemmas about the dictionary model -/

section DictLemmas

variable {α β : Type} [DecidableEq α]

theorem dget_dset (d : List (α × β)) (k k' : α) (v : β) :
    dget (dset d k v) k' = if k = k' then some v else dget d k' := by
  induction d with
  | nil => by_cases h : k = k' <;> simp [dset, dget, h]
  | cons e rest ih =>
    obtain ⟨k1, v1⟩ := e
    by_cases h1 : k1 = k
    · subst h1
      by_cases h2 : k1 = k' <;> simp [dset, dget, h2]
    · by_cases h2 : k1 = k'
      · subst h2
        have hne : ¬ k = k1 := fun h => h1 h.symm
        simp [dset, dget, h1, hne]
      · simp [dset, dget, h1, h2, ih]

theorem dgetD_dset (d : List (α × β)) (k k' : α) (v : β) (v0 : β) :
    dgetD (dset d k v) k' v0 = if k = k' then v else dgetD d k' v0 := by
  by_cases h : k = k' <;> simp [dgetD, dget_dset, h]

theorem mem_dset {d : List (α × β)} {k : α} {v : β} {x : α × β}
    (hx : x ∈ dset d k v) : x ∈ d ∨ x = (k, v) := by
  induction d with
  | nil => simpa [dset] using hx
  | cons e rest ih =>
    obtain ⟨k1, v1⟩ := e
    by_cases h1 : k1 = k
    · simp only [dset, if_pos h1] at hx
      rcases List.mem_cons.mp hx with h | h
      · right; exact h
      · left; exact List.mem_cons_of_mem _ h
    · simp only [dset, if_neg h1] at hx
      rcases List.mem_cons.mp hx with h | h
      · left; rw [h]; exact List.mem_cons_self _ _
      · rcases ih h with h' | h'
        · left; exact List.mem_cons_of_mem _ h'
        · right; exact h'

theorem keys_dset (d : List (α × β)) (k : α) (v : β) :
    (dset d k v).map (fun e => e.1) =
      if k ∈ d.map (fun e => e.1) then d.map (fun e => e.1)
      else d.map (fun e => e.1) ++ [k] := by
  induction d with
  | nil => simp [dset]
  | cons e rest ih =>
    obtain ⟨k1, v1⟩ := e
    by_cases h1 : k1 = k
    · subst h1
      simp [dset]
    · have h1' : ¬ k = k1 := fun h => h1 h.symm
      by_cases h2 : k ∈ rest.map (fun e => e.1) <;>
        simp [dset, h1, h1', h2, ih]

theorem keys_dset_nodup {d : List (α × β)} (h : (d.map (fun e => e.1)).Nodup)
    (k : α) (v : β) : ((dset d k v).map (fun e => e.1)).Nodup := by
  rw [keys_dset]
  split
  · exact h
  · next hk =>
    rw [List.nodup_append]
    exact ⟨h, List.nodup_singleton _, by simpa using hk⟩

theorem dget_eq_none_iff (d : List (α × β)) (k : α) :
    dget d k = none ↔ k ∉ d.map (fun e => e.1) := by
  induction d with
  | nil => simp [dget]
  | cons e rest ih =>
    obtain ⟨k1, v1⟩ := e
    by_cases h : k1 = k
    · subst h
      simp [dget]
    · have h' : ¬ k = k1 := fun hh => h hh.symm
      simp [dget, h, h', ih]

theorem dget_mem {d : List (α × β)} {k : α} {v : β} (h : dget d k = some v) :
    (k, v) ∈ d := by
  induction d with
  | nil => simp [dget] at h
  | cons e rest ih =>
    obtain ⟨k1, v1⟩ := e
    by_cases h1 : k1 = k
    · subst h1
      simp only [dget, if_pos rfl] at h
      obtain rfl : v1 = v := Option.some.inj h
      exact List.mem_cons_self _ _
    · simp only [dget, if_neg h1] at h
      exact List.mem_cons_of_mem _ (ih h)

theorem dget_of_mem_nodup {d : List (α × β)} {k : α} {v : β}
    (hnd : (d.map (fun e => e.1)).Nodup) (h : (k, v) ∈ d) : dget d k = some v := by
  induction d with
  | nil => simp at h
  | cons e rest ih =>
    obtain ⟨k1, v1⟩ := e
    rcases List.mem_cons.mp h with h' | h'
    · cases h'
      simp [dget]
    · have h1 : ¬ k1 = k := by
        rintro rfl
        have : k1 ∈ rest.map (fun e => e.1) := List.mem_map.mpr ⟨(k1, v), h', rfl⟩
        exact (List.nodup_cons.mp hnd).1 this
      simp only [dget, if_neg h1]
      exact ih (List.nodup_cons.mp hnd).2 h'

theorem dset_eq_append {d : List (α × β)} {k : α}
    (h : k ∉ d.map (fun e => e.1)) (v : β) : dset d k v = d ++ [(k, v)] := by
  induction d with
  | nil => simp [dset]
  | cons e rest ih =>
    obtain ⟨k1, v1⟩ := e
    simp only [List.map_cons, List.mem_cons] at h
    push_neg at h
    simp only [dset, if_neg (show ¬ k1 = k from fun he => h.1 he.symm)]
    rw [ih h.2]
    rfl

theorem foldl_dset_rebuild {l : List (α × β)} (hl : (l.map (fun e => e.1)).Nodup) :
    ∀ acc : List (α × β), (∀ k ∈ l.map (fun e => e.1), k ∉ acc.map (fun e => e.1)) →
      l.foldl (fun acc e => dset acc e.1 e.2) acc = acc ++ l := by
  induction l with
  | nil => intro acc _; simp
  | cons e rest ih =>
    intro acc hdisj
    simp only [List.foldl_cons]
    rw [dset_eq_append (hdisj e.1 (by simp))]
    have hrest : (rest.map (fun e => e.1)).Nodup := (List.nodup_cons.mp hl).2
    rw [ih hrest]
    · simp
    · intro k hk
      simp only [List.map_append, List.mem_append]
      push_neg
      refine ⟨hdisj k (by simp [hk]), ?_⟩
      intro hc
      simp only [List.map_cons, List.map_nil, List.mem_singleton] at hc
      subst hc
      exact (List.nodup_cons.mp hl).1 hk

theorem sum_dset_add (d : List (α × ℚ)) (k : α) (x : ℚ) :
    ((dset d k (dgetD d k 0 + x)).map (fun e => e.2)).sum =
      (d.map (fun e => e.2)).sum + x := by
  induction d with
  | nil => simp [dset, dgetD, dget]
  | cons e rest ih =>
    obtain ⟨k1, v1⟩ := e
    by_cases h : k1 = k
    · subst h
      simp [dset, dgetD, dget]
      ring
    · have ih' := ih
      simp only [dgetD] at ih'
      simp [dset, dgetD, dget, h, ih']
      ring

end DictLemmas

/-! ### Lemmas about set insertion, sorted deduplication and grids -/

section ListLemmas

theorem mem_sinsert {α : Type} [DecidableEq α] (l : List α) (a b : α) :
    b ∈ sinsert l a ↔ b = a ∨ b ∈ l := by
  by_cases h : a ∈ l
  · simp only [sinsert, if_pos h]
    constructor
    · exact Or.inr
    · rintro (rfl | hb)
      · exact h
      · exact hb
  · simp [sinsert, if_neg h, or_comm]

theorem nodup_sinsert {α : Type} [DecidableEq α] {l : List α} (h : l.Nodup) (a : α) :
    (sinsert l a).Nodup := by
  by_cases ha : a ∈ l
  · simpa [sinsert, ha] using h
  · rw [sinsert, if_neg ha]
    simp [List.nodup_append, h, ha]

theorem mem_sortedInsert (a b : String) (l : List String) :
    b ∈ sortedInsert a l ↔ b = a ∨ b ∈ l := by
  induction l with
  | nil => simp [sortedInsert]
  | cons c rest ih =>
    by_cases h1 : a < c
    · have heq : sortedInsert a (c :: rest) = a :: c :: rest := by
        simp only [sortedInsert]
        rw [if_pos h1]
      rw [heq]
      simp only [List.mem_cons]
    · by_cases h2 : a = c
      · subst h2
        have heq : sortedInsert a (a :: rest) = a :: rest := by
          simp only [sortedInsert]
          rw [if_neg h1]
          simp
        rw [heq, List.mem_cons]
        tauto
      · have heq : sortedInsert a (c :: rest) = c :: sortedInsert a rest := by
          simp only [sortedInsert]
          rw [if_neg h1, if_neg h2]
        rw [heq, List.mem_cons, ih, List.mem_cons]
        tauto

theorem sorted_sortedInsert (a : String) {l : List String}
    (h : l.Sorted (· < ·)) : (sortedInsert a l).Sorted (· < ·) := by
  induction l with
  | nil => simp [sortedInsert]
  | cons c rest ih =>
    rcases List.sorted_cons.mp h with ⟨hc, hrest⟩
    by_cases h1 : a < c
    · rw [sortedInsert, if_pos h1]
      refine List.sorted_cons.mpr ⟨?_, h⟩
      intro b hb
      rcases List.mem_cons.mp hb with rfl | hb
      · exact h1
      · exact h1.trans (hc b hb)
    · by_cases h2 : a = c
      · rw [sortedInsert, if_neg h1, if_pos h2]
        exact h
      · rw [sortedInsert, if_neg h1, if_neg h2]
        refine List.sorted_cons.mpr ⟨?_, ih hrest⟩
        intro b hb
        rcases (mem_sortedInsert a b rest).mp hb with rfl | hb
        · exact lt_of_le_of_ne (not_lt.mp h1) (fun hh => h2 hh.symm)
        · exact hc b hb

theorem sorted_sortedDedup (l : List String) : (sortedDedup l).Sorted (· < ·) := by
  induction l with
  | nil => simp [sortedDedup]
  | cons a rest ih =>
    simp only [sortedDedup, List.foldr_cons]
    exact sorted_sortedInsert a ih

theorem mem_sortedDedup (l : List String) (b : String) :
    b ∈ sortedDedup l ↔ b ∈ l := by
  induction l with
  | nil => simp [sortedDedup]
  | cons a rest ih =>
    simp only [sortedDedup, List.foldr_cons] at *
    rw [mem_sortedInsert, ih, List.mem_cons]

theorem nodup_sortedDedup (l : List String) : (sortedDedup l).Nodup :=
  (sorted_sortedDedup l).nodup

theorem mem_gridOf (ls : List (List String)) (k : List String) :
    k ∈ gridOf ls ↔ List.Forall₂ (fun x dom => x ∈ dom) k ls := by
  induction ls generalizing k with
  | nil =>
    cases k <;> simp [gridOf]
  | cons dom rest ih =>
    cases k with
    | nil =>
      simp [gridOf]
    | cons x k' =>
      simp only [gridOf, List.mem_flatMap, List.mem_map, List.forall₂_cons]
      constructor
      · rintro ⟨y, hy, g, hg, heq⟩
        obtain ⟨rfl, rfl⟩ := List.cons_eq_cons.mp heq
        exact ⟨hy, (ih _).mp hg⟩
      · rintro ⟨hx, hk'⟩
        exact ⟨x, hx, k', (ih k').mpr hk', rfl⟩

theorem length_of_mem_gridOf {ls : List (List String)} {k : List String}
    (h : k ∈ gridOf ls) : k.length = ls.length :=
  ((mem_gridOf ls k).mp h).length_eq

theorem nodup_flatMap_cons {dom : List String} {gs : List (List String)}
    (hdom : dom.Nodup) (hgs : gs.Nodup) :
    (dom.flatMap (fun x => gs.map (fun k => x :: k))).Nodup := by
  induction dom with
  | nil => simp
  | cons x dom2 ih =>
    simp only [List.flatMap_cons, List.nodup_append]
    rcases List.nodup_cons.mp hdom with ⟨hx, hdom2⟩
    refine ⟨hgs.map (fun a b hab => (List.cons_eq_cons.mp hab).2), ih hdom2, ?_⟩
    intro g hg hmem
    simp only [List.mem_map] at hg
    obtain ⟨g0, _, rfl⟩ := hg
    simp only [List.mem_flatMap, List.mem_map] at hmem
    obtain ⟨y, hy, g1, _, heq⟩ := hmem
    exact hx ((List.cons_eq_cons.mp heq).1 ▸ hy)

theorem nodup_gridOf {ls : List (List String)} (h : ∀ dom ∈ ls, dom.Nodup) :
    (gridOf ls).Nodup := by
  induction ls with
  | nil => simp [gridOf]
  | cons dom rest ih =>
    simp only [gridOf]
    exact nodup_flatMap_cons (h dom (by simp)) (ih (fun d hd => h d (by simp [hd])))

theorem dgetD_zip_map (l : List String) (a : String → String) {v : String}
    (hv : v ∈ l) : dgetD (l.zip (l.map a)) v "" = a v := by
  induction l with
  | nil => simp at hv
  | cons b rest ih =>
    by_cases h : b = v
    · subst h
      simp [dgetD, dget]
    · rcases List.mem_cons.mp hv with rfl | hv'
      · exact absurd rfl h
      · simp only [List.map_cons, List.zip_cons_cons, dgetD, dget, if_neg h]
        exact ih hv'

theorem projKey_map (newVars scope : List String) (a : String → String)
    (hsub : ∀ v ∈ scope, v ∈ newVars) :
    projKey newVars (newVars.map a) scope = scope.map a := by
  unfold projKey
  apply List.map_congr_left
  intro v hv
  exact dgetD_zip_map newVars a (hsub v hv)

end ListLemmas

/-! ### The inferred variable domains -/

section DomLemmas

theorem mem_domAdd_of (doms : List (String × List String)) (p : String × String)
    {v x : String} (h : x ∈ dgetD doms v []) : x ∈ dgetD (domAdd doms p) v [] := by
  unfold domAdd
  rw [dgetD_dset]
  by_cases hv : p.1 = v
  · rw [if_pos hv]
    subst hv
    exact (mem_sinsert _ _ _).mpr (Or.inr h)
  · rwa [if_neg hv]

theorem mem_domAdd_self (doms : List (String × List String)) (p : String × String) :
    p.2 ∈ dgetD (domAdd doms p) p.1 [] := by
  unfold domAdd
  rw [dgetD_dset, if_pos rfl]
  exact (mem_sinsert _ _ _).mpr (Or.inl rfl)

theorem mem_domAdd_cases (doms : List (String × List String)) (p : String × String)
    {v x : String} (h : x ∈ dgetD (domAdd doms p) v []) :
    x ∈ dgetD doms v [] ∨ (v, x) = p := by
  unfold domAdd at h
  rw [dgetD_dset] at h
  by_cases hv : p.1 = v
  · rw [if_pos hv] at h
    rcases (mem_sinsert _ _ _).mp h with rfl | h'
    · right
      rw [← hv]
    · left
      rwa [hv] at h'
  · rw [if_neg hv] at h
    exact Or.inl h

theorem mem_foldl_domAdd_of (ps : List (String × String))
    (doms : List (String × List String)) {v x : String}
    (h : x ∈ dgetD doms v []) : x ∈ dgetD (ps.foldl domAdd doms) v [] := by
  induction ps generalizing doms with
  | nil => exact h
  | cons p rest ih => exact ih _ (mem_domAdd_of doms p h)

theorem mem_foldl_domAdd_self (ps : List (String × String))
    (doms : List (String × List String)) {p : String × String} (hp : p ∈ ps) :
    p.2 ∈ dgetD (ps.foldl domAdd doms) p.1 [] := by
  induction ps generalizing doms with
  | nil => simp at hp
  | cons q rest ih =>
    rcases List.mem_cons.mp hp with rfl | hp'
    · exact mem_foldl_domAdd_of rest _ (mem_domAdd_self doms p)
    · exact ih _ hp'

theorem mem_foldl_domAdd_cases (ps : List (String × String))
    (doms : List (String × List String)) {v x : String}
    (h : x ∈ dgetD (ps.foldl domAdd doms) v []) :
    x ∈ dgetD doms v [] ∨ (v, x) ∈ ps := by
  induction ps generalizing doms with
  | nil => exact Or.inl h
  | cons q rest ih =>
    rcases ih _ h with h' | h'
    · rcases mem_domAdd_cases doms q h' with h'' | h''
      · exact Or.inl h''
      · exact Or.inr (h'' ▸ List.mem_cons_self _ _)
    · exact Or.inr (List.mem_cons_of_mem _ h')

theorem mem_scanCpt_of (scope : List String) (cpt : List (List String × ℚ))
    (doms : List (String × List String)) {v x : String}
    (h : x ∈ dgetD doms v []) : x ∈ dgetD (scanCpt scope doms cpt) v [] := by
  induction cpt generalizing doms with
  | nil => exact h
  | cons e rest ih => exact ih _ (mem_foldl_domAdd_of _ _ h)

theorem mem_scanCpt_self (scope : List String) (cpt : List (List String × ℚ))
    (doms : List (String × List String)) {e : List String × ℚ} (he : e ∈ cpt)
    {v x : String} (hvx : (v, x) ∈ scope.zip e.1) :
    x ∈ dgetD (scanCpt scope doms cpt) v [] := by
  induction cpt generalizing doms with
  | nil => simp at he
  | cons e0 rest ih =>
    rcases List.mem_cons.mp he with rfl | he'
    · exact mem_scanCpt_of scope rest _
        (mem_foldl_domAdd_self _ _ (show ((v, x) : String × String) ∈ _ from hvx))
    · exact ih _ he'

theorem mem_scanCpt_cases (scope : List String) (cpt : List (List String × ℚ))
    (doms : List (String × List String)) {v x : String}
    (h : x ∈ dgetD (scanCpt scope doms cpt) v []) :
    x ∈ dgetD doms v [] ∨ ∃ e ∈ cpt, (v, x) ∈ scope.zip e.1 := by
  induction cpt generalizing doms with
  | nil => exact Or.inl h
  | cons e0 rest ih =>
    rcases ih _ h with h' | h'
    · rcases mem_foldl_domAdd_cases _ _ h' with h'' | h''
      · exact Or.inl h''
      · exact Or.inr ⟨e0, List.mem_cons_self _ _, h''⟩
    · obtain ⟨e, he, hvx⟩ := h'
      exact Or.inr ⟨e, List.mem_cons_of_mem _ he, hvx⟩

theorem dgetD_map_nil (l : List String) (v : String) :
    dgetD (l.map (fun v => (v, ([] : List String)))) v [] = [] := by
  induction l with
  | nil => simp [dgetD, dget]
  | cons b rest ih =>
    by_cases h : b = v
    · subst h
      simp [dgetD, dget]
    · simpa [dgetD, dget, h] using ih

theorem nodup_domAdd (doms : List (String × List String))
    (hd : ∀ v, (dgetD doms v []).Nodup) (p : String × String) :
    ∀ v, (dgetD (domAdd doms p) v []).Nodup := by
  intro v
  unfold domAdd
  rw [dgetD_dset]
  by_cases hv : p.1 = v
  · rw [if_pos hv]
    exact nodup_sinsert (hd p.1) p.2
  · rw [if_neg hv]
    exact hd v

theorem nodup_foldl_domAdd (ps : List (String × String))
    (doms : List (String × List String)) (hd : ∀ v, (dgetD doms v []).Nodup) :
    ∀ v, (dgetD (ps.foldl domAdd doms) v []).Nodup := by
  induction ps generalizing doms with
  | nil => exact hd
  | cons p rest ih => exact ih _ (nodup_domAdd doms hd p)

theorem nodup_scanCpt (scope : List String) (cpt : List (List String × ℚ))
    (doms : List (String × List String)) (hd : ∀ v, (dgetD doms v []).Nodup) :
    ∀ v, (dgetD (scanCpt scope doms cpt) v []).Nodup := by
  induction cpt generalizing doms with
  | nil => exact hd
  | cons e rest ih => exact ih _ (nodup_foldl_domAdd _ _ hd)

theorem nodup_varDoms (newVars : List String) (f1 f2 : Factor) :
    ∀ v, (dgetD (varDoms newVars f1 f2) v []).Nodup := by
  unfold varDoms
  refine nodup_scanCpt _ _ _ (nodup_scanCpt _ _ _ ?_)
  intro v
  rw [dgetD_map_nil]
  exact List.nodup_nil

/-- Membership of an observed pair in the inferred domains. -/
theorem mem_varDoms_self {newVars : List String} {f1 f2 : Factor}
    {v x : String}
    (h : (∃ e ∈ f1.cpt, (v, x) ∈ f1.vars.zip e.1) ∨
         (∃ e ∈ f2.cpt, (v, x) ∈ f2.vars.zip e.1)) :
    x ∈ dgetD (varDoms newVars f1 f2) v [] := by
  unfold varDoms
  rcases h with ⟨e, he, hvx⟩ | ⟨e, he, hvx⟩
  · exact mem_scanCpt_of _ _ _ (mem_scanCpt_self _ _ _ he hvx)
  · exact mem_scanCpt_self _ _ _ he hvx

/-- Every value in the inferred domains is observed in one of the two tables. -/
theorem mem_varDoms_cases {newVars : List String} {f1 f2 : Factor} {v x : String}
    (h : x ∈ dgetD (varDoms newVars f1 f2) v []) :
    (∃ e ∈ f1.cpt, (v, x) ∈ f1.vars.zip e.1) ∨
      (∃ e ∈ f2.cpt, (v, x) ∈ f2.vars.zip e.1) := by
  unfold varDoms at h
  rcases mem_scanCpt_cases _ _ _ h with h' | h'
  · rcases mem_scanCpt_cases _ _ _ h' with h'' | h''
    · rw [dgetD_map_nil] at h''
      simp at h''
    · exact Or.inl h''
  · exact Or.inr h'

end DomLemmas

/-! ### The pointwise semantics of the factor product -/

section MulLemmas

theorem dget_map_key {l : List (List String)} (g : List String → ℚ)
    (k : List String) :
    dget (l.map (fun k => (k, g k))) k = if k ∈ l then some (g k) else none := by
  induction l with
  | nil => simp [dget]
  | cons c rest ih =>
    by_cases h : c = k
    · subst h
      simp [dget]
    · have h' : ¬ k = c := fun hh => h hh.symm
      simp [dget, h, h', ih]

theorem forall₂_map_same {β γ : Type} (l : List String) (f : String → β)
    (g : String → γ) (R : β → γ → Prop) :
    List.Forall₂ R (l.map f) (l.map g) ↔ ∀ v ∈ l, R (f v) (g v) := by
  induction l with
  | nil => simp
  | cons b rest ih => simp [List.forall₂_cons, ih]

theorem mem_zip_map {l : List String} {v : String} (f : String → String)
    (h : v ∈ l) : (v, f v) ∈ l.zip (l.map f) := by
  induction l with
  | nil => simp at h
  | cons b rest ih =>
    rcases List.mem_cons.mp h with rfl | h'
    · simp
    · simp only [List.map_cons, List.zip_cons_cons]
      exact List.mem_cons_of_mem _ (ih h')

theorem mem_mulVars_left {f1 f2 : Factor} {v : String} (h : v ∈ f1.vars) :
    v ∈ mulVars f1 f2 :=
  (mem_sortedDedup _ _).mpr (List.mem_append.mpr (Or.inl h))

theorem mem_mulVars_right {f1 f2 : Factor} {v : String} (h : v ∈ f2.vars) :
    v ∈ mulVars f1 f2 :=
  (mem_sortedDedup _ _).mpr (List.mem_append.mpr (Or.inr h))

theorem mem_mulVars_cases {f1 f2 : Factor} {v : String} (h : v ∈ mulVars f1 f2) :
    v ∈ f1.vars ∨ v ∈ f2.vars := by
  have := (mem_sortedDedup _ _).mp h
  exact List.mem_append.mp this

/-- An assignment key over the union scope lies in the enumerated grid exactly when
each variable's value lies in its inferred domain. -/
theorem map_mem_mulGrid (f1 f2 : Factor) (a : String → String) :
    (mulVars f1 f2).map a ∈ mulGrid f1 f2 ↔
      ∀ v ∈ mulVars f1 f2,
        a v ∈ dgetD (varDoms (mulVars f1 f2) f1 f2) v [] := by
  rw [mulGrid, mem_gridOf, forall₂_map_same]

/-- If some union variable's value is not observed for it in a factor that contains
the variable, that factor's lookup is `0`. -/
theorem evalF_eq_zero_of_not_obs {g : Factor} {a : String → String}
    {v : String} (hv : v ∈ g.vars)
    (hno : ∀ e ∈ g.cpt, (v, a v) ∉ g.vars.zip e.1) : evalF g a = 0 := by
  unfold evalF dgetD
  cases hg : dget g.cpt (g.vars.map a) with
  | none => simp
  | some w =>
    exfalso
    exact hno _ (dget_mem hg) (mem_zip_map a hv)

/-- The factor product is the pointwise product of the zero-extension semantics:
`⟦multiply_factors f1 f2⟧ = ⟦f1⟧ * ⟦f2⟧` on every total assignment. -/
theorem evalF_multiply (f1 f2 : Factor) (a : String → String) :
    evalF (multiply_factors f1 f2) a = evalF f1 a * evalF f2 a := by
  have hvars : (multiply_factors f1 f2).vars = mulVars f1 f2 := rfl
  have hcpt : (multiply_factors f1 f2).cpt =
      (mulGrid f1 f2).map (fun k =>
        (k, dgetD f1.cpt (projKey (mulVars f1 f2) k f1.vars) 0 *
            dgetD f2.cpt (projKey (mulVars f1 f2) k f2.vars) 0)) := rfl
  by_cases hk : (mulVars f1 f2).map a ∈ mulGrid f1 f2
  · have h1 : projKey (mulVars f1 f2) ((mulVars f1 f2).map a) f1.vars =
        f1.vars.map a :=
      projKey_map _ _ a (fun v hv => mem_mulVars_left hv)
    have h2 : projKey (mulVars f1 f2) ((mulVars f1 f2).map a) f2.vars =
        f2.vars.map a :=
      projKey_map _ _ a (fun v hv => mem_mulVars_right hv)
    show dgetD (multiply_factors f1 f2).cpt ((multiply_factors f1 f2).vars.map a) 0 = _
    rw [hvars, hcpt]
    unfold dgetD
    rw [dget_map_key, if_pos hk, Option.getD_some, h1, h2]
    rfl
  · have hzero : dget (multiply_factors f1 f2).cpt ((mulVars f1 f2).map a) = none := by
      rw [hcpt, dget_map_key, if_neg hk]
    have hlhs : evalF (multiply_factors f1 f2) a = 0 := by
      unfold evalF dgetD
      rw [hvars, hzero]
      rfl
    rw [hlhs]
    rw [map_mem_mulGrid] at hk
    push_neg at hk
    obtain ⟨v, hv, hnotin⟩ := hk
    rcases mem_mulVars_cases hv with hv1 | hv2
    · have : evalF f1 a = 0 := by
        refine evalF_eq_zero_of_not_obs hv1 ?_
        intro e he hmem
        exact hnotin (mem_varDoms_self (Or.inl ⟨e, he, hmem⟩))
      rw [this, zero_mul]
    · have : evalF f2 a = 0 := by
        refine evalF_eq_zero_of_not_obs hv2 ?_
        intro e he hmem
        exact hnotin (mem_varDoms_self (Or.inr ⟨e, he, hmem⟩))
      rw [this, mul_zero]

end MulLemmas

/-! ### Marginalisation -/

section SumOutLemmas

theorem upd_self (a : String → String) (v x : String) : upd a v x v = x := by
  simp [upd]

theorem upd_ne (a : String → String) {v w : String} (x : String) (h : w ≠ v) :
    upd a v x w = a w := by
  simp [upd, h]

theorem upd_upd_self (a : String → String) (v x y : String) :
    upd (upd a v x) v y = upd a v y := by
  funext w
  by_cases h : w = v <;> simp [upd, h]

theorem upd_comm (a : String → String) {v w : String} (x y : String) (h : v ≠ w) :
    upd (upd a v x) w y = upd (upd a w y) v x := by
  funext u
  by_cases h1 : u = w
  · subst h1
    have h' : ¬ u = v := fun hh => h hh.symm
    simp [upd, h']
  · by_cases h2 : u = v
    · subst h2
      simp [upd, h1]
    · simp [upd, h1, h2]

theorem map_upd_not_mem {l : List String} {v : String} (a : String → String)
    (x : String) (h : v ∉ l) : l.map (upd a v x) = l.map a := by
  apply List.map_congr_left
  intro w hw
  exact upd_ne a x (fun hh => h (hh ▸ hw))

theorem indexOf_append_cons {p : List String} (q : List String) {v : String}
    (hp : v ∉ p) : List.indexOf v (p ++ v :: q) = p.length := by
  induction p with
  | nil => simp
  | cons b p2 ih =>
    have hb : v ≠ b := fun h => hp (h ▸ List.mem_cons_self _ _)
    have hp2 : v ∉ p2 := fun h => hp (List.mem_cons_of_mem _ h)
    simp only [List.cons_append, List.length_cons]
    rw [List.indexOf_cons_ne _ (fun h => hb h.symm), ih hp2]

theorem eraseIdx_append_cons (k1 : List String) (y : String) (k2 : List String) :
    (k1 ++ y :: k2).eraseIdx k1.length = k1 ++ k2 := by
  induction k1 with
  | nil => rfl
  | cons b k1' ih => simp [List.eraseIdx, ih]

theorem exists_decomp {key : List String} {n m : ℕ} (h : key.length = n + 1 + m) :
    ∃ k1 y k2, key = k1 ++ y :: k2 ∧ k1.length = n ∧ k2.length = m := by
  induction n generalizing key with
  | zero =>
    cases key with
    | nil => simp at h; omega
    | cons y k2 =>
      refine ⟨[], y, k2, rfl, rfl, ?_⟩
      simp only [List.length_cons] at h
      omega
  | succ n ih =>
    cases key with
    | nil =>
      simp only [List.length_nil] at h
      omega
    | cons b key' =>
      have h' : key'.length = n + 1 + m := by
        simp only [List.length_cons] at h
        omega
      obtain ⟨k1, y, k2, rfl, hk1, hk2⟩ := ih h'
      exact ⟨b :: k1, y, k2, rfl, by simp [hk1], hk2⟩

theorem dgetD_sumFold (g : List String → List String)
    (l : List (List String × ℚ)) (p : List String) :
    ∀ acc : List (List String × ℚ),
      dgetD (l.foldl (fun acc e => dset acc (g e.1) (dgetD acc (g e.1) 0 + e.2)) acc) p 0
        = dgetD acc p 0 +
          ((l.filter (fun e => decide (g e.1 = p))).map (fun e => e.2)).sum := by
  induction l with
  | nil => intro acc; simp
  | cons e rest ih =>
    intro acc
    simp only [List.foldl_cons]
    rw [ih]
    by_cases h : g e.1 = p
    · rw [dgetD_dset, if_pos h]
      subst h
      rw [List.filter_cons, if_pos (by simp)]
      simp only [List.map_cons, List.sum_cons]
      ring
    · rw [dgetD_dset, if_neg h]
      rw [List.filter_cons, if_neg (by simpa using h)]

theorem sum_sumFold (g : List String → List String) (l : List (List String × ℚ)) :
    ∀ acc : List (List String × ℚ),
      ((l.foldl (fun acc e => dset acc (g e.1) (dgetD acc (g e.1) 0 + e.2)) acc).map
          (fun e => e.2)).sum
        = (acc.map (fun e => e.2)).sum + (l.map (fun e => e.2)).sum := by
  induction l with
  | nil => intro acc; simp
  | cons e rest ih =>
    intro acc
    simp only [List.foldl_cons]
    rw [ih, sum_dset_add]
    simp only [List.map_cons, List.sum_cons]
    ring

theorem sum_ite_point {T : Finset String} {y : String} (hy : y ∈ T)
    (g : String → ℚ) (hgy : g y = 0) (A : ℚ) :
    (∑ x ∈ T, if x = y then A else g x) = A + ∑ x ∈ T, g x := by
  have hcong : ∀ x ∈ T, (if x = y then A else g x) = g x + (if x = y then A else 0) := by
    intro x _
    by_cases h : x = y
    · subst h
      simp [hgy]
    · simp [h]
  rw [Finset.sum_congr rfl hcong, Finset.sum_add_distrib]
  rw [Finset.sum_ite_eq' T y (fun _ => A), if_pos hy]
  ring

theorem dget_cons {α β : Type} [DecidableEq α] (e : α × β) (rest : List (α × β))
    (k : α) : dget (e :: rest) k = if e.1 = k then some e.2 else dget rest k := by
  cases e
  rfl

theorem sum_out_eq {f : Factor} {v : String} (h : v ∈ f.vars) :
    sum_out f v = Factor.mk (f.vars.filter (fun w => w ≠ v))
      (f.cpt.foldl (fun acc e =>
        dset acc (e.1.eraseIdx (List.indexOf v f.vars))
          (dgetD acc (e.1.eraseIdx (List.indexOf v f.vars)) 0 + e.2)) []) := by
  unfold sum_out
  rw [if_pos h]

theorem sum_out_not_mem {f : Factor} {v : String} (h : v ∉ f.vars) :
    sum_out f v = f := by
  unfold sum_out
  rw [if_neg h]

theorem filter_sum_eq_sum_over {P Q : List String} {S : Finset String} :
    ∀ cpt : List (List String × ℚ),
      (cpt.map (fun e => e.1)).Nodup →
      (∀ e ∈ cpt, e.1.length = P.length + 1 + Q.length) →
      (∀ e ∈ cpt, ∀ k1 y k2, e.1 = k1 ++ y :: k2 → k1.length = P.length → y ∈ S) →
      ((cpt.filter (fun e => decide (e.1.eraseIdx P.length = P ++ Q))).map
          (fun e => e.2)).sum
        = ∑ x ∈ S, dgetD cpt (P ++ x :: Q) 0 := by
  intro cpt
  induction cpt with
  | nil =>
    intro _ _ _
    simp [dgetD, dget]
  | cons e rest ih =>
    intro hnd har hS
    obtain ⟨hend, hrnd⟩ := List.nodup_cons.mp hnd
    have harr : ∀ e2 ∈ rest, e2.1.length = P.length + 1 + Q.length :=
      fun e2 he2 => har e2 (List.mem_cons_of_mem _ he2)
    have hSr : ∀ e2 ∈ rest, ∀ k1 y k2, e2.1 = k1 ++ y :: k2 →
        k1.length = P.length → y ∈ S :=
      fun e2 he2 => hS e2 (List.mem_cons_of_mem _ he2)
    obtain ⟨k1, y, k2, hkey, hk1, hk2⟩ := exists_decomp (har e (List.mem_cons_self _ _))
    by_cases hmatch : e.1.eraseIdx P.length = P ++ Q
    · have herase : e.1.eraseIdx P.length = k1 ++ k2 := by
        rw [hkey, ← hk1]
        exact eraseIdx_append_cons k1 y k2
      obtain ⟨hk1P, hk2Q⟩ := List.append_inj (herase.symm.trans hmatch) hk1
      rw [hk1P, hk2Q] at hkey
      have hy : y ∈ S := hS e (List.mem_cons_self _ _) P y Q hkey rfl
      have hiff : ∀ x : String, e.1 = P ++ x :: Q ↔ x = y := by
        intro x
        constructor
        · intro hx
          have h2 := (List.append_inj (hkey.symm.trans hx) rfl).2
          exact (List.cons_eq_cons.mp h2).1.symm
        · rintro rfl
          exact hkey
      rw [List.filter_cons, if_pos (by simpa using hmatch)]
      simp only [List.map_cons, List.sum_cons]
      rw [ih hrnd harr hSr]
      have hpoint : ∀ x ∈ S, dgetD (e :: rest) (P ++ x :: Q) 0 =
          if x = y then e.2 else dgetD rest (P ++ x :: Q) 0 := by
        intro x _
        unfold dgetD
        rw [dget_cons]
        by_cases hx : x = y
        · rw [if_pos ((hiff x).mpr hx), if_pos hx]
          rfl
        · rw [if_neg (fun hh => hx ((hiff x).mp hh)), if_neg hx]
      rw [Finset.sum_congr rfl hpoint]
      have hgy : dgetD rest (P ++ y :: Q) 0 = 0 := by
        unfold dgetD
        rw [(dget_eq_none_iff rest (P ++ y :: Q)).mpr (hkey ▸ hend)]
        rfl
      rw [sum_ite_point hy _ hgy e.2]
    · rw [List.filter_cons, if_neg (by simpa using hmatch)]
      rw [ih hrnd harr hSr]
      refine Finset.sum_congr rfl ?_
      intro x _
      unfold dgetD
      rw [dget_cons, if_neg ?_]
      intro hh
      apply hmatch
      rw [hh]
      exact eraseIdx_append_cons P x Q

theorem evalF_sum_out {f : Factor} {v : String} (hWF : WF f) (hv : v ∈ f.vars)
    {S : Finset String}
    (hS : ∀ e ∈ f.cpt, ∀ x, (v, x) ∈ f.vars.zip e.1 → x ∈ S)
    (a : String → String) :
    evalF (sum_out f v) a = ∑ x ∈ S, evalF f (upd a v x) := by
  obtain ⟨hvnd, hknd, harity⟩ := hWF
  obtain ⟨p, q, hpq⟩ := List.append_of_mem hv
  have hnd' : (p ++ v :: q).Nodup := hpq ▸ hvnd
  obtain ⟨hpnd, hvqnd, hdisj⟩ := List.nodup_append.mp hnd'
  have hvp : v ∉ p := fun hvp => hdisj hvp (List.mem_cons_self _ _)
  have hvq : v ∉ q := (List.nodup_cons.mp hvqnd).1
  have hidx : List.indexOf v f.vars = p.length := by
    rw [hpq]
    exact indexOf_append_cons q hvp
  have hfilter : f.vars.filter (fun w => w ≠ v) = p ++ q := by
    rw [hpq, List.filter_append, List.filter_cons]
    rw [if_neg (by simp)]
    congr 1
    · refine List.filter_eq_self.mpr ?_
      intro w hw
      have hwv : w ≠ v := fun hh => hvp (by rw [← hh]; exact hw)
      simpa using hwv
    · refine List.filter_eq_self.mpr ?_
      intro w hw
      have hwv : w ≠ v := fun hh => hvq (by rw [← hh]; exact hw)
      simpa using hwv
  have hL : ∀ x : String, f.vars.map (upd a v x) = p.map a ++ x :: q.map a := by
    intro x
    rw [hpq, List.map_append, List.map_cons, map_upd_not_mem a x hvp,
      map_upd_not_mem a x hvq, upd_self]
  have hrhs : ∀ x : String, evalF f (upd a v x) =
      dgetD f.cpt (p.map a ++ x :: q.map a) 0 := by
    intro x
    unfold evalF
    rw [hL]
  have harr : ∀ e ∈ f.cpt, e.1.length = (p.map a).length + 1 + (q.map a).length := by
    intro e he
    rw [List.length_map, List.length_map]
    rw [harity e he, hpq]
    simp
    omega
  have hS' : ∀ e ∈ f.cpt, ∀ k1 y k2, e.1 = k1 ++ y :: k2 →
      k1.length = (p.map a).length → y ∈ S := by
    intro e he k1 y k2 hkey hlen
    refine hS e he y ?_
    rw [hpq, hkey]
    rw [List.length_map] at hlen
    rw [List.zip_append hlen.symm]
    exact List.mem_append_right _ (List.mem_cons_self _ _)
  have hlhs : evalF (sum_out f v) a =
      ((f.cpt.filter (fun e => decide
          (e.1.eraseIdx (p.map a).length = p.map a ++ q.map a))).map
        (fun e => e.2)).sum := by
    unfold evalF
    rw [sum_out_eq hv]
    show dgetD (f.cpt.foldl (fun acc e =>
        dset acc (e.1.eraseIdx (List.indexOf v f.vars))
          (dgetD acc (e.1.eraseIdx (List.indexOf v f.vars)) 0 + e.2)) [])
        ((f.vars.filter (fun w => w ≠ v)).map a) 0 = _
    rw [hidx, hfilter, List.map_append]
    rw [dgetD_sumFold (fun k => k.eraseIdx p.length) f.cpt (p.map a ++ q.map a) []]
    simp only [dgetD, dget, Option.getD_none, zero_add]
    rw [show (p.map a).length = p.length from List.length_map p a]
  rw [hlhs, filter_sum_eq_sum_over f.cpt hknd harr hS']
  exact Finset.sum_congr rfl (fun x _ => (hrhs x).symm)

end SumOutLemmas

/-! ### Well-formedness and observed-value preservation -/

section WFLemmas

theorem keys_sumFold_nodup (g : List String → List String)
    (l : List (List String × ℚ)) :
    ∀ acc : List (List String × ℚ), ((acc.map (fun e => e.1)).Nodup) →
      (((l.foldl (fun acc e => dset acc (g e.1) (dgetD acc (g e.1) 0 + e.2)) acc).map
        (fun e => e.1)).Nodup) := by
  induction l with
  | nil => intro acc h; exact h
  | cons e rest ih =>
    intro acc h
    exact ih _ (keys_dset_nodup h _ _)

theorem mem_keys_sumFold (g : List String → List String)
    (l : List (List String × ℚ)) {k : List String} :
    ∀ acc : List (List String × ℚ),
      k ∈ (l.foldl (fun acc e => dset acc (g e.1) (dgetD acc (g e.1) 0 + e.2)) acc).map
        (fun e => e.1) →
      k ∈ acc.map (fun e => e.1) ∨ ∃ e ∈ l, k = g e.1 := by
  induction l with
  | nil => intro acc h; exact Or.inl h
  | cons e rest ih =>
    intro acc h
    rcases ih _ h with h' | h'
    · rw [keys_dset] at h'
      by_cases hmem : g e.1 ∈ acc.map (fun x => x.1)
      · rw [if_pos hmem] at h'
        exact Or.inl h'
      · rw [if_neg hmem] at h'
        rcases List.mem_append.mp h' with h'' | h''
        · exact Or.inl h''
        · right
          exact ⟨e, List.mem_cons_self _ _, (List.mem_singleton.mp h'')⟩
    · obtain ⟨e2, he2, hk⟩ := h'
      exact Or.inr ⟨e2, List.mem_cons_of_mem _ he2, hk⟩

/-- Decomposition of a duplicate-free list at a member. -/
theorem nodup_split {l : List String} {v : String} (hnd : l.Nodup) (hv : v ∈ l) :
    ∃ p q, l = p ++ v :: q ∧ v ∉ p ∧ v ∉ q ∧
      l.filter (fun w => w ≠ v) = p ++ q ∧ List.indexOf v l = p.length := by
  obtain ⟨p, q, rfl⟩ := List.append_of_mem hv
  obtain ⟨hpnd, hvqnd, hdisj⟩ := List.nodup_append.mp hnd
  have hvp : v ∉ p := fun hvp => hdisj hvp (List.mem_cons_self _ _)
  have hvq : v ∉ q := (List.nodup_cons.mp hvqnd).1
  refine ⟨p, q, rfl, hvp, hvq, ?_, indexOf_append_cons q hvp⟩
  rw [List.filter_append, List.filter_cons]
  rw [if_neg (by simp)]
  congr 1
  · refine List.filter_eq_self.mpr ?_
    intro w hw
    have hwv : w ≠ v := fun hh => hvp (by rw [← hh]; exact hw)
    simpa using hwv
  · refine List.filter_eq_self.mpr ?_
    intro w hw
    have hwv : w ≠ v := fun hh => hvq (by rw [← hh]; exact hw)
    simpa using hwv

theorem WF_multiply (f1 f2 : Factor) : WF (multiply_factors f1 f2) := by
  refine ⟨nodup_sortedDedup _, ?_, ?_⟩
  · have hcpt : (multiply_factors f1 f2).cpt = (mulGrid f1 f2).map (fun k =>
        (k, dgetD f1.cpt (projKey (mulVars f1 f2) k f1.vars) 0 *
            dgetD f2.cpt (projKey (mulVars f1 f2) k f2.vars) 0)) := rfl
    rw [hcpt, List.map_map]
    have hcomp : ((fun (e : List String × ℚ) => e.1) ∘ (fun k =>
        (k, dgetD f1.cpt (projKey (mulVars f1 f2) k f1.vars) 0 *
            dgetD f2.cpt (projKey (mulVars f1 f2) k f2.vars) 0))) =
          fun k => k := rfl
    rw [hcomp, List.map_id']
    refine nodup_gridOf ?_
    intro dom hdom
    obtain ⟨v, _, rfl⟩ := List.mem_map.mp hdom
    exact nodup_varDoms _ f1 f2 v
  · intro e he
    obtain ⟨k, hk, rfl⟩ := List.mem_map.mp he
    show k.length = (mulVars f1 f2).length
    rw [length_of_mem_gridOf hk, List.length_map]

theorem WF_sum_out {f : Factor} (hWF : WF f) (v : String) : WF (sum_out f v) := by
  by_cases hv : v ∈ f.vars
  · obtain ⟨hvnd, hknd, harity⟩ := hWF
    obtain ⟨p, q, hpq, hvp, hvq, hfilter, hidx⟩ := nodup_split hvnd hv
    rw [sum_out_eq hv]
    refine ⟨?_, ?_, ?_⟩
    · exact hvnd.filter _
    · show ((f.cpt.foldl (fun acc e =>
          dset acc (e.1.eraseIdx (List.indexOf v f.vars))
            (dgetD acc (e.1.eraseIdx (List.indexOf v f.vars)) 0 + e.2)) []).map
          (fun e => e.1)).Nodup
      exact keys_sumFold_nodup (fun k => k.eraseIdx (List.indexOf v f.vars))
        f.cpt [] (by simp)
    · intro e he
      have hk : e.1 ∈ (f.cpt.foldl (fun acc e =>
          dset acc (e.1.eraseIdx (List.indexOf v f.vars))
            (dgetD acc (e.1.eraseIdx (List.indexOf v f.vars)) 0 + e.2)) []).map
          (fun e => e.1) := List.mem_map.mpr ⟨e, he, rfl⟩
      rcases mem_keys_sumFold (fun k => k.eraseIdx (List.indexOf v f.vars))
          f.cpt [] hk with h' | h'
      · simp at h'
      · obtain ⟨e2, he2, hke⟩ := h'
        show e.1.length = (f.vars.filter (fun w => w ≠ v)).length
        have hlen : e2.1.length = p.length + 1 + q.length := by
          rw [harity e2 he2, hpq]
          simp only [List.length_append, List.length_cons]
          omega
        rw [hke, hfilter, hidx, List.length_eraseIdx, hlen]
        rw [if_pos (by omega)]
        simp only [List.length_append]
        omega
  · rw [sum_out_not_mem hv]
    exact hWF

/-- The one-entry condition tested by the evidence-reduction step. -/
def evConsistent (scope : List String) (E : List (String × String))
    (key : List String) : Bool :=
  (scope.zip key).all (fun p =>
    match dget E p.1 with
    | none => true
    | some w => w == p.2)

theorem reduceFactor_eq (f : Factor) (E : List (String × String)) :
    reduceFactor f E = Factor.mk f.vars
      (f.cpt.foldl (fun acc e =>
        if evConsistent f.vars E e.1 then dset acc e.1 e.2 else acc) []) := rfl

theorem mem_reduceFold {scope : List String} {E : List (String × String)}
    (l : List (List String × ℚ)) {x : List String × ℚ} :
    ∀ acc : List (List String × ℚ),
      x ∈ l.foldl (fun acc e =>
        if evConsistent scope E e.1 then dset acc e.1 e.2 else acc) acc →
      x ∈ acc ∨ x ∈ l := by
  induction l with
  | nil => intro acc h; exact Or.inl h
  | cons e rest ih =>
    intro acc h
    rw [List.foldl_cons] at h
    by_cases hc : evConsistent scope E e.1 = true
    · rw [if_pos hc] at h
      rcases ih _ h with h' | h'
      · rcases mem_dset h' with h'' | h''
        · exact Or.inl h''
        · right
          rw [h'']
          exact List.mem_cons_self _ _
      · exact Or.inr (List.mem_cons_of_mem _ h')
    · rw [if_neg hc] at h
      rcases ih _ h with h' | h'
      · exact Or.inl h'
      · exact Or.inr (List.mem_cons_of_mem _ h')

theorem mem_reduce_sub {f : Factor} {E : List (String × String)}
    {x : List String × ℚ} (hx : x ∈ (reduceFactor f E).cpt) : x ∈ f.cpt := by
  rw [reduceFactor_eq] at hx
  rcases mem_reduceFold f.cpt [] hx with h' | h'
  · simp at h'
  · exact h'

theorem keys_reduceFold_nodup {scope : List String} {E : List (String × String)}
    (l : List (List String × ℚ)) :
    ∀ acc : List (List String × ℚ), ((acc.map (fun e => e.1)).Nodup) →
      (((l.foldl (fun acc e =>
        if evConsistent scope E e.1 then dset acc e.1 e.2 else acc) acc).map
          (fun e => e.1)).Nodup) := by
  induction l with
  | nil => intro acc h; exact h
  | cons e rest ih =>
    intro acc h
    rw [List.foldl_cons]
    by_cases hc : evConsistent scope E e.1 = true
    · rw [if_pos hc]
      exact ih _ (keys_dset_nodup h _ _)
    · rw [if_neg hc]
      exact ih _ h

theorem keys_reduce_nodup (f : Factor) (E : List (String × String)) :
    (((reduceFactor f E).cpt).map (fun e => e.1)).Nodup := by
  rw [reduceFactor_eq]
  exact keys_reduceFold_nodup f.cpt [] (by simp)

theorem WF_reduce {f : Factor} (hWF : WF f) (E : List (String × String)) :
    WF (reduceFactor f E) := by
  refine ⟨hWF.1, keys_reduce_nodup f E, ?_⟩
  intro e he
  exact hWF.2.2 e (mem_reduce_sub he)

theorem mem_zip_grid {l : List String} {dom : String → List String}
    {k : List String} (hk : List.Forall₂ (fun x d => x ∈ d) k (l.map dom))
    {v x : String} (hvx : (v, x) ∈ l.zip k) : x ∈ dom v := by
  induction l generalizing k with
  | nil => simp at hvx
  | cons b l2 ih =>
    cases k with
    | nil => simp at hvx
    | cons x0 k2 =>
      rw [List.map_cons, List.forall₂_cons] at hk
      rcases (by simpa [List.zip_cons_cons] using hvx :
          (v = b ∧ x = x0) ∨ (v, x) ∈ l2.zip k2) with ⟨hv2, hx2⟩ | hmem
      · rw [hv2, hx2]
        exact hk.1
      · exact ih hk.2 hmem

end WFLemmas

/-! ### Observed-value bounds through the pipeline -/

section ObsLemmas

theorem ObsLE_vacuous {f : Factor} {v : String} (hv : v ∉ f.vars)
    (S : Finset String) : ObsLE f v S := by
  intro e _ x hvx
  exact absurd (List.of_mem_zip hvx).1 hv

theorem ObsLE_reduce {f : Factor} {v : String} {S : Finset String}
    (h : ObsLE f v S) (E : List (String × String)) :
    ObsLE (reduceFactor f E) v S := by
  intro e he x hvx
  exact h e (mem_reduce_sub he) x hvx

theorem ObsLE_multiply {f1 f2 : Factor} {v : String} {S : Finset String}
    (h1 : ObsLE f1 v S) (h2 : ObsLE f2 v S) :
    ObsLE (multiply_factors f1 f2) v S := by
  intro e he x hvx
  obtain ⟨k, hk, rfl⟩ := List.mem_map.mp he
  have hkgrid : List.Forall₂ (fun x d => x ∈ d) k
      ((mulVars f1 f2).map
        (fun v => dgetD (varDoms (mulVars f1 f2) f1 f2) v [])) :=
    (mem_gridOf _ _).mp hk
  have hxdom : x ∈ dgetD (varDoms (mulVars f1 f2) f1 f2) v [] :=
    mem_zip_grid hkgrid hvx
  rcases mem_varDoms_cases hxdom with ⟨e1, he1, hp⟩ | ⟨e2, he2, hp⟩
  · exact h1 e1 he1 x hp
  · exact h2 e2 he2 x hp

theorem ObsLE_sum_out {f : Factor} {w : String} {S : Finset String}
    (hWF : WF f) (h : ObsLE f w S) (v : String) : ObsLE (sum_out f v) w S := by
  by_cases hv : v ∈ f.vars
  · obtain ⟨hvnd, hknd, harity⟩ := hWF
    obtain ⟨p, q, hpq, hvp, hvq, hfilter, hidx⟩ := nodup_split hvnd hv
    rw [sum_out_eq hv]
    intro e he x hvx
    have hkmem : e.1 ∈ (f.cpt.foldl (fun acc e =>
        dset acc (e.1.eraseIdx (List.indexOf v f.vars))
          (dgetD acc (e.1.eraseIdx (List.indexOf v f.vars)) 0 + e.2)) []).map
        (fun e => e.1) := List.mem_map.mpr ⟨e, he, rfl⟩
    rcases mem_keys_sumFold (fun k => k.eraseIdx (List.indexOf v f.vars))
        f.cpt [] hkmem with h' | h'
    · simp at h'
    · obtain ⟨e2, he2, hke⟩ := h'
      have hlen : e2.1.length = p.length + 1 + q.length := by
        rw [harity e2 he2, hpq]
        simp only [List.length_append, List.length_cons]
        omega
      obtain ⟨k1, y, k2, hkey, hk1, hk2⟩ := exists_decomp hlen
      have he1 : e.1 = k1 ++ k2 := by
        rw [hke, hidx, hkey, ← hk1]
        exact eraseIdx_append_cons k1 y k2
      have hvx2 : (w, x) ∈ (f.vars.filter (fun u => u ≠ v)).zip e.1 := hvx
      rw [hfilter, he1, List.zip_append hk1.symm] at hvx2
      refine h e2 he2 x ?_
      rw [hpq, hkey, List.zip_append hk1.symm]
      rcases List.mem_append.mp hvx2 with hin | hin
      · exact List.mem_append_left _ hin
      · refine List.mem_append_right _ ?_
        rw [List.zip_cons_cons]
        exact List.mem_cons_of_mem _ hin
  · rw [sum_out_not_mem hv]
    exact h

end ObsLemmas

/-! ### Products of working factor lists -/

section ProdLemmas

theorem mem_vars_multiply {f1 f2 : Factor} {w : String} :
    w ∈ (multiply_factors f1 f2).vars ↔ w ∈ f1.vars ∨ w ∈ f2.vars := by
  show w ∈ mulVars f1 f2 ↔ _
  rw [mulVars, mem_sortedDedup, List.mem_append]

theorem evalF_foldl_multiply (rest : List Factor) (f0 : Factor)
    (a : String → String) :
    evalF (rest.foldl multiply_factors f0) a = evalF f0 a * prodEval rest a := by
  induction rest generalizing f0 with
  | nil => simp [prodEval]
  | cons g rest ih =>
    rw [List.foldl_cons, ih, evalF_multiply]
    simp only [prodEval, List.map_cons, List.prod_cons]
    ring

theorem mem_vars_foldl_multiply {rest : List Factor} {f0 : Factor} {w : String} :
    w ∈ (rest.foldl multiply_factors f0).vars ↔
      w ∈ f0.vars ∨ ∃ f ∈ rest, w ∈ f.vars := by
  induction rest generalizing f0 with
  | nil => simp
  | cons g rest ih =>
    rw [List.foldl_cons, ih, mem_vars_multiply]
    constructor
    · rintro ((h | h) | ⟨f, hf, h⟩)
      · exact Or.inl h
      · exact Or.inr ⟨g, List.mem_cons_self _ _, h⟩
      · exact Or.inr ⟨f, List.mem_cons_of_mem _ hf, h⟩
    · rintro (h | ⟨f, hf, h⟩)
      · exact Or.inl (Or.inl h)
      · rcases List.mem_cons.mp hf with rfl | hf'
        · exact Or.inl (Or.inr h)
        · exact Or.inr ⟨f, hf', h⟩

theorem WF_foldl_multiply {rest : List Factor} {f0 : Factor} (h0 : WF f0) :
    WF (rest.foldl multiply_factors f0) := by
  induction rest generalizing f0 with
  | nil => exact h0
  | cons g rest ih => exact ih (WF_multiply f0 g)

theorem ObsLE_foldl_multiply {rest : List Factor} {f0 : Factor} {v : String}
    {S : Finset String} (h0 : ObsLE f0 v S) (hr : ∀ f ∈ rest, ObsLE f v S) :
    ObsLE (rest.foldl multiply_factors f0) v S := by
  induction rest generalizing f0 with
  | nil => exact h0
  | cons g rest ih =>
    rw [List.foldl_cons]
    exact ih (ObsLE_multiply h0 (hr g (List.mem_cons_self _ _)))
      (fun f hf => hr f (List.mem_cons_of_mem _ hf))

theorem prodEval_partition (v : String) (ws : List Factor) (a : String → String) :
    prodEval ws a =
      prodEval (ws.filter (fun f => decide (v ∈ f.vars))) a *
        prodEval (ws.filter (fun f => decide (v ∉ f.vars))) a := by
  induction ws with
  | nil => simp [prodEval]
  | cons f ws ih =>
    by_cases hf : v ∈ f.vars
    · rw [show (f :: ws).filter (fun f => decide (v ∈ f.vars)) =
          f :: ws.filter (fun f => decide (v ∈ f.vars)) from by
            rw [List.filter_cons, if_pos (by simpa using hf)]]
      rw [show (f :: ws).filter (fun f => decide (v ∉ f.vars)) =
          ws.filter (fun f => decide (v ∉ f.vars)) from by
            rw [List.filter_cons, if_neg (by simpa using hf)]]
      simp only [prodEval, List.map_cons, List.prod_cons] at *
      rw [ih]
      ring
    · rw [show (f :: ws).filter (fun f => decide (v ∈ f.vars)) =
          ws.filter (fun f => decide (v ∈ f.vars)) from by
            rw [List.filter_cons, if_neg (by simpa using hf)]]
      rw [show (f :: ws).filter (fun f => decide (v ∉ f.vars)) =
          f :: ws.filter (fun f => decide (v ∉ f.vars)) from by
            rw [List.filter_cons, if_pos (by simpa using hf)]]
      simp only [prodEval, List.map_cons, List.prod_cons] at *
      rw [ih]
      ring

theorem prodEval_append (l1 l2 : List Factor) (a : String → String) :
    prodEval (l1 ++ l2) a = prodEval l1 a * prodEval l2 a := by
  simp [prodEval]

theorem evalF_upd_not_mem {f : Factor} {v : String} (hv : v ∉ f.vars)
    (a : String → String) (x : String) : evalF f (upd a v x) = evalF f a := by
  unfold evalF
  rw [map_upd_not_mem a x hv]

theorem prodEval_upd_not_mem {ws : List Factor} {v : String}
    (h : ∀ f ∈ ws, v ∉ f.vars) (a : String → String) (x : String) :
    prodEval ws (upd a v x) = prodEval ws a := by
  unfold prodEval
  congr 1
  apply List.map_congr_left
  intro f hf
  exact evalF_upd_not_mem (h f hf) a x

end ProdLemmas

/-! ### Iterated sums over assignments -/

section SumOverLemmas

theorem sumOver_sum (D : String → Finset String) (vs : List String)
    (s : Finset String) (G : String → (String → String) → ℚ) (a : String → String) :
    sumOver D vs (fun b => ∑ x ∈ s, G x b) a = ∑ x ∈ s, sumOver D vs (G x) a := by
  induction vs generalizing a with
  | nil => rfl
  | cons v vs ih =>
    show (∑ y ∈ D v, sumOver D vs (fun b => ∑ x ∈ s, G x b) (upd a v y)) = _
    rw [Finset.sum_congr rfl (fun y _ => ih (upd a v y))]
    exact Finset.sum_comm

theorem sumOver_upd (D : String → Finset String) {vs : List String} {v : String}
    (hv : v ∉ vs) (g : (String → String) → ℚ) (x : String) (a : String → String) :
    sumOver D vs (fun b => g (upd b v x)) a = sumOver D vs g (upd a v x) := by
  induction vs generalizing a with
  | nil => rfl
  | cons w vs ih =>
    have hvw : v ≠ w := fun h => hv (h ▸ List.mem_cons_self _ _)
    have hv' : v ∉ vs := fun h => hv (List.mem_cons_of_mem _ h)
    show (∑ y ∈ D w, sumOver D vs (fun b => g (upd b v x)) (upd a w y)) = _
    refine Finset.sum_congr rfl ?_
    intro y _
    rw [ih hv' (upd a w y), (upd_comm a x y hvw).symm]

theorem sumOver_perm (D : String → Finset String) {o1 o2 : List String}
    (hperm : o1.Perm o2) :
    ∀ (g : (String → String) → ℚ) (a : String → String),
      sumOver D o1 g a = sumOver D o2 g a := by
  induction hperm with
  | nil => intro g a; rfl
  | cons v _ ih =>
    intro g a
    show (∑ x ∈ D v, sumOver D _ g (upd a v x)) =
      ∑ x ∈ D v, sumOver D _ g (upd a v x)
    exact Finset.sum_congr rfl (fun x _ => ih g (upd a v x))
  | swap v w l =>
    intro g a
    show (∑ x ∈ D w, ∑ y ∈ D v, sumOver D l g (upd (upd a w x) v y)) =
      ∑ x ∈ D v, ∑ y ∈ D w, sumOver D l g (upd (upd a v x) w y)
    by_cases hvw : w = v
    · subst hvw
      rfl
    · rw [Finset.sum_comm]
      refine Finset.sum_congr rfl ?_
      intro x _
      refine Finset.sum_congr rfl ?_
      intro y _
      rw [(upd_comm a x y (fun h => hvw h.symm)).symm]
  | trans _ _ ih1 ih2 =>
    intro g a
    rw [ih1 g a, ih2 g a]

end SumOverLemmas

/-! ### The elimination loop -/

section ElimLemmas

theorem elimStep_eval {working working' : List Factor} {v : String}
    (hstep : elimStep working v = .ok working')
    (hWF : ∀ f ∈ working, WF f) {S : Finset String}
    (hObs : ∀ f ∈ working, ObsLE f v S) (a : String → String) :
    prodEval working' a = ∑ x ∈ S, prodEval working (upd a v x) := by
  unfold elimStep at hstep
  cases hws : working.filter (fun f => decide (v ∈ f.vars)) with
  | nil =>
    rw [hws] at hstep
    exact absurd hstep (by simp)
  | cons f0 rest =>
    rw [hws] at hstep
    have hw' := Except.ok.inj hstep
    subst hw'
    have hmemf : ∀ f ∈ f0 :: rest, f ∈ working ∧ v ∈ f.vars := by
      intro f hf
      rw [← hws] at hf
      have := List.mem_filter.mp hf
      exact ⟨this.1, by simpa using this.2⟩
    have hf0 := hmemf f0 (List.mem_cons_self _ _)
    have hwout : ∀ f ∈ working.filter (fun f => decide (v ∉ f.vars)), v ∉ f.vars := by
      intro f hf
      have := List.mem_filter.mp hf
      simpa using this.2
    have hwoutmem : ∀ f ∈ working.filter (fun f => decide (v ∉ f.vars)),
        f ∈ working := fun f hf => (List.mem_filter.mp hf).1
    have hprodWF : WF (rest.foldl multiply_factors f0) :=
      WF_foldl_multiply (hWF f0 hf0.1)
    have hprodv : v ∈ (rest.foldl multiply_factors f0).vars :=
      mem_vars_foldl_multiply.mpr (Or.inl hf0.2)
    have hprodObs : ObsLE (rest.foldl multiply_factors f0) v S :=
      ObsLE_foldl_multiply (hObs f0 hf0.1)
        (fun f hf => hObs f (hmemf f (List.mem_cons_of_mem _ hf)).1)
    have hsum := evalF_sum_out hprodWF hprodv hprodObs a
    rw [prodEval_append]
    have hsingle : prodEval [sum_out (rest.foldl multiply_factors f0) v] a =
        evalF (sum_out (rest.foldl multiply_factors f0) v) a := by
      simp [prodEval]
    rw [hsingle, hsum, Finset.mul_sum]
    refine Finset.sum_congr rfl ?_
    intro x _
    rw [prodEval_partition v working (upd a v x), hws]
    rw [prodEval_upd_not_mem hwout a x]
    rw [evalF_foldl_multiply]
    simp only [prodEval, List.map_cons, List.prod_cons]
    ring

theorem elimStep_preserve {working working' : List Factor} {v : String}
    (hstep : elimStep working v = .ok working')
    (hWF : ∀ f ∈ working, WF f)
    {D : String → Finset String}
    (hObs : ∀ f ∈ working, ∀ w, ObsLE f w (D w)) :
    (∀ f ∈ working', WF f) ∧ (∀ f ∈ working', ∀ w, ObsLE f w (D w)) ∧
      working' ≠ [] ∧
      (∀ w, w ∈ varsOfL working' ↔ (w ∈ varsOfL working ∧ w ≠ v)) := by
  unfold elimStep at hstep
  cases hws : working.filter (fun f => decide (v ∈ f.vars)) with
  | nil =>
    rw [hws] at hstep
    exact absurd hstep (by simp)
  | cons f0 rest =>
    rw [hws] at hstep
    have hw' := Except.ok.inj hstep
    subst hw'
    have hmemf : ∀ f ∈ f0 :: rest, f ∈ working ∧ v ∈ f.vars := by
      intro f hf
      rw [← hws] at hf
      have := List.mem_filter.mp hf
      exact ⟨this.1, by simpa using this.2⟩
    have hf0 := hmemf f0 (List.mem_cons_self _ _)
    have hwout : ∀ f ∈ working.filter (fun f => decide (v ∉ f.vars)),
        f ∈ working ∧ v ∉ f.vars := by
      intro f hf
      have := List.mem_filter.mp hf
      exact ⟨this.1, by simpa using this.2⟩
    have hprodWF : WF (rest.foldl multiply_factors f0) :=
      WF_foldl_multiply (hWF f0 hf0.1)
    have hprodv : v ∈ (rest.foldl multiply_factors f0).vars :=
      mem_vars_foldl_multiply.mpr (Or.inl hf0.2)
    refine ⟨?_, ?_, by simp, ?_⟩
    · intro f hf
      rcases List.mem_append.mp hf with hf' | hf'
      · exact hWF f (hwout f hf').1
      · rw [List.mem_singleton.mp hf']
        exact WF_sum_out hprodWF v
    · intro f hf w
      rcases List.mem_append.mp hf with hf' | hf'
      · exact hObs f (hwout f hf').1 w
      · rw [List.mem_singleton.mp hf']
        refine ObsLE_sum_out hprodWF ?_ v
        exact ObsLE_foldl_multiply (hObs f0 hf0.1 w)
          (fun f2 hf2 => hObs f2 (hmemf f2 (List.mem_cons_of_mem _ hf2)).1 w)
    · intro w
      constructor
      · intro hw
        obtain ⟨f, hf, hwf⟩ := List.mem_flatMap.mp hw
        rcases List.mem_append.mp hf with hf' | hf'
        · obtain ⟨hfw, hfv⟩ := hwout f hf'
          exact ⟨List.mem_flatMap.mpr ⟨f, hfw, hwf⟩,
            fun hh => hfv (hh ▸ hwf)⟩
        · rw [List.mem_singleton.mp hf'] at hwf
          rw [sum_out_eq hprodv] at hwf
          have hwf2 : w ∈ (rest.foldl multiply_factors f0).vars.filter
              (fun u => u ≠ v) := hwf
          have hmem := List.mem_filter.mp hwf2
          have hwne : w ≠ v := by simpa using hmem.2
          rcases mem_vars_foldl_multiply.mp hmem.1 with h' | ⟨f2, hf2, h'⟩
          · exact ⟨List.mem_flatMap.mpr ⟨f0, hf0.1, h'⟩, hwne⟩
          · exact ⟨List.mem_flatMap.mpr
              ⟨f2, (hmemf f2 (List.mem_cons_of_mem _ hf2)).1, h'⟩, hwne⟩
      · rintro ⟨hw, hwne⟩
        obtain ⟨f, hf, hwf⟩ := List.mem_flatMap.mp hw
        by_cases hfv : v ∈ f.vars
        · have hfin : f ∈ f0 :: rest := by
            rw [← hws]
            exact List.mem_filter.mpr ⟨hf, by simpa using hfv⟩
          have hwprod : w ∈ (rest.foldl multiply_factors f0).vars := by
            rcases List.mem_cons.mp hfin with rfl | hfin'
            · exact mem_vars_foldl_multiply.mpr (Or.inl hwf)
            · exact mem_vars_foldl_multiply.mpr (Or.inr ⟨f, hfin', hwf⟩)
          refine List.mem_flatMap.mpr ⟨sum_out (rest.foldl multiply_factors f0) v,
            List.mem_append_right _ (List.mem_singleton.mpr rfl), ?_⟩
          rw [sum_out_eq hprodv]
          show w ∈ (rest.foldl multiply_factors f0).vars.filter (fun u => u ≠ v)
          exact List.mem_filter.mpr ⟨hwprod, by simpa using hwne⟩
        · refine List.mem_flatMap.mpr ⟨f, List.mem_append_left _ ?_, hwf⟩
          exact List.mem_filter.mpr ⟨hf, by simpa using hfv⟩

theorem runFold_eval (D : String → Finset String) :
    ∀ (order : List String) (ws fsEnd : List Factor),
      order.foldlM elimStep ws = .ok fsEnd → order.Nodup →
      (∀ f ∈ ws, WF f) → (∀ f ∈ ws, ∀ w, ObsLE f w (D w)) →
      (∀ a, prodEval fsEnd a = sumOver D order (prodEval ws) a) ∧
      (∀ f ∈ fsEnd, WF f) ∧ (ws ≠ [] → fsEnd ≠ []) ∧
      (∀ w, w ∈ varsOfL fsEnd ↔ (w ∈ varsOfL ws ∧ w ∉ order)) := by
  intro order
  induction order with
  | nil =>
    intro ws fsEnd hrun _ hWF _
    have hws : ws = fsEnd := Except.ok.inj
      (show Except.ok ws = Except.ok fsEnd from hrun)
    subst hws
    exact ⟨fun a => rfl, hWF, fun h => h, fun w => by simp⟩
  | cons v vs ih =>
    intro ws fsEnd hrun hnd hWF hObs
    rw [List.foldlM_cons] at hrun
    cases hstep : elimStep ws v with
    | error e =>
      rw [hstep] at hrun
      exact Except.noConfusion
        (show (Except.error e : Except PyErr (List Factor)) = Except.ok fsEnd from hrun)
    | ok ws1 =>
      rw [hstep] at hrun
      replace hrun : vs.foldlM elimStep ws1 = .ok fsEnd := hrun
      obtain ⟨hWF1, hObs1, hne1, hvars1⟩ := elimStep_preserve hstep hWF hObs
      obtain ⟨heval, hWF2, hne2, hvars2⟩ :=
        ih ws1 fsEnd hrun (List.nodup_cons.mp hnd).2 hWF1 hObs1
      have hvnotvs : v ∉ vs := (List.nodup_cons.mp hnd).1
      refine ⟨?_, hWF2, fun _ => hne2 hne1, ?_⟩
      · intro a
        rw [heval a]
        have hstep_eval : ∀ b : String → String,
            prodEval ws1 b = ∑ x ∈ D v, prodEval ws (upd b v x) :=
          fun b => elimStep_eval hstep hWF (fun f hf => hObs f hf v) b
        calc sumOver D vs (prodEval ws1) a
            = sumOver D vs (fun b => ∑ x ∈ D v, prodEval ws (upd b v x)) a := by
              rw [funext hstep_eval]
          _ = ∑ x ∈ D v, sumOver D vs (fun b => prodEval ws (upd b v x)) a :=
              sumOver_sum D vs (D v) _ a
          _ = ∑ x ∈ D v, sumOver D vs (prodEval ws) (upd a v x) :=
              Finset.sum_congr rfl (fun x _ => sumOver_upd D hvnotvs _ x a)
          _ = sumOver D (v :: vs) (prodEval ws) a := rfl
      · intro w
        rw [hvars2 w, hvars1 w, List.mem_cons]
        constructor
        · rintro ⟨⟨h1, h2⟩, h3⟩
          exact ⟨h1, fun hh => hh.elim h2 h3⟩
        · rintro ⟨h1, h2⟩
          exact ⟨⟨h1, fun hh => h2 (Or.inl hh)⟩, fun hh => h2 (Or.inr hh)⟩

end ElimLemmas

/-! ### Empty evidence, run success, and normalisation -/

section InferLemmas

theorem evConsistent_empty (scope : List String) (key : List String) :
    evConsistent scope [] key = true := by
  unfold evConsistent
  rw [List.all_eq_true]
  intro p _
  rfl

theorem reduce_empty_eq {f : Factor} (hWF : WF f) : reduceFactor f [] = f := by
  rw [reduceFactor_eq]
  have hfold : ∀ (l : List (List String × ℚ)) (acc : List (List String × ℚ)),
      l.foldl (fun acc e =>
        if evConsistent f.vars [] e.1 then dset acc e.1 e.2 else acc) acc =
      l.foldl (fun acc e => dset acc e.1 e.2) acc := by
    intro l
    induction l with
    | nil => intro acc; rfl
    | cons e rest ih =>
      intro acc
      rw [List.foldl_cons, List.foldl_cons, if_pos (evConsistent_empty f.vars e.1)]
      exact ih _
  rw [hfold]
  rw [foldl_dset_rebuild hWF.2.1 [] (by simp)]
  simp only [List.nil_append]

theorem map_reduce_empty {fs : List Factor} (hWF : ∀ f ∈ fs, WF f) :
    fs.map (fun f => reduceFactor f []) = fs := by
  induction fs with
  | nil => rfl
  | cons f rest ih =>
    rw [List.map_cons, reduce_empty_eq (hWF f (List.mem_cons_self _ _))]
    rw [ih (fun g hg => hWF g (List.mem_cons_of_mem _ hg))]

theorem ObsLE_obsSet {fs : List Factor} {f : Factor} (hf : f ∈ fs) (v : String) :
    ObsLE f v (obsSet fs v) := by
  intro e he x hvx
  unfold obsSet
  rw [List.mem_toFinset]
  refine List.mem_flatMap.mpr ⟨f, hf, ?_⟩
  unfold observedVals
  refine List.mem_flatMap.mpr ⟨e, he, ?_⟩
  refine List.mem_filterMap.mpr ⟨(v, x), hvx, ?_⟩
  simp

theorem elimStep_ok_of_mem {ws : List Factor} {v : String}
    (hv : v ∈ varsOfL ws) : ∃ ws1, elimStep ws v = .ok ws1 := by
  obtain ⟨f, hf, hvf⟩ := List.mem_flatMap.mp hv
  unfold elimStep
  cases hws : ws.filter (fun f => decide (v ∈ f.vars)) with
  | nil =>
    exfalso
    have : f ∈ ws.filter (fun f => decide (v ∈ f.vars)) :=
      List.mem_filter.mpr ⟨hf, by simpa using hvf⟩
    rw [hws] at this
    simp at this
  | cons f0 rest => exact ⟨_, rfl⟩

theorem run_ok (D : String → Finset String) :
    ∀ (order : List String) (ws : List Factor), order.Nodup →
      (∀ f ∈ ws, WF f) → (∀ f ∈ ws, ∀ w, ObsLE f w (D w)) →
      (∀ v ∈ order, v ∈ varsOfL ws) →
      ∃ fsEnd, order.foldlM elimStep ws = .ok fsEnd := by
  intro order
  induction order with
  | nil => intro ws _ _ _ _; exact ⟨ws, rfl⟩
  | cons v vs ih =>
    intro ws hnd hWF hObs hmem
    obtain ⟨ws1, hstep⟩ := elimStep_ok_of_mem (hmem v (List.mem_cons_self _ _))
    obtain ⟨hWF1, hObs1, _, hvars1⟩ := elimStep_preserve hstep hWF hObs
    have hmem1 : ∀ w ∈ vs, w ∈ varsOfL ws1 := by
      intro w hw
      refine (hvars1 w).mpr ⟨hmem w (List.mem_cons_of_mem _ hw), ?_⟩
      intro hh
      exact (List.nodup_cons.mp hnd).1 (hh ▸ hw)
    obtain ⟨fsEnd, hrun⟩ := ih ws1 (List.nodup_cons.mp hnd).2 hWF1 hObs1 hmem1
    refine ⟨fsEnd, ?_⟩
    rw [List.foldlM_cons, hstep]
    exact hrun

theorem eq_singleton_of_nodup {l : List String} {c : String} (hnd : l.Nodup)
    (hmem : ∀ w, w ∈ l ↔ w = c) : l = [c] := by
  cases l with
  | nil =>
    exfalso
    exact (List.not_mem_nil c) ((hmem c).mpr rfl)
  | cons w t =>
    have hwc : w = c := (hmem w).mp (List.mem_cons_self _ _)
    subst hwc
    cases t with
    | nil => rfl
    | cons u t2 =>
      exfalso
      have huc : u = w :=
        (hmem u).mp (List.mem_cons_of_mem _ (List.mem_cons_self _ _))
      exact (List.nodup_cons.mp hnd).1 (huc ▸ List.mem_cons_self _ _)

theorem sumValues_eq_sum {T : Finset String} :
    ∀ cpt : List (List String × ℚ),
      ((cpt.map (fun e => e.1)).Nodup) →
      (∀ e ∈ cpt, ∃ q, e.1 = [q]) →
      (∀ e ∈ cpt, ∀ q, e.1 = [q] → q ∈ T) →
      sumValues cpt = ∑ q ∈ T, dgetD cpt [q] 0 := by
  intro cpt
  induction cpt with
  | nil =>
    intro _ _ _
    simp [sumValues, dgetD, dget]
  | cons e rest ih =>
    intro hnd har hT
    obtain ⟨hend, hrnd⟩ := List.nodup_cons.mp hnd
    obtain ⟨q0, hq0⟩ := har e (List.mem_cons_self _ _)
    have hq0T : q0 ∈ T := hT e (List.mem_cons_self _ _) q0 hq0
    have hpoint : ∀ q ∈ T, dgetD (e :: rest) [q] 0 =
        if q = q0 then e.2 else dgetD rest [q] 0 := by
      intro q _
      unfold dgetD
      rw [dget_cons]
      by_cases hq : q = q0
      · subst hq
        rw [if_pos hq0, if_pos rfl]
        rfl
      · rw [if_neg (fun hh => hq (by
          rw [hq0] at hh
          exact (List.cons_eq_cons.mp hh.symm).1)), if_neg hq]
    rw [Finset.sum_congr rfl hpoint]
    have hgq0 : dgetD rest [q0] 0 = 0 := by
      unfold dgetD
      rw [(dget_eq_none_iff rest [q0]).mpr (hq0 ▸ hend)]
      rfl
    rw [sum_ite_point hq0T _ hgq0 e.2]
    rw [← ih hrnd (fun e2 he2 => har e2 (List.mem_cons_of_mem _ he2))
      (fun e2 he2 => hT e2 (List.mem_cons_of_mem _ he2))]
    simp [sumValues]

theorem normalize_nil (total : ℚ) : normalize [] total = .ok [] := rfl

theorem normStep_nil_key {total : ℚ} (acc : List (String × ℚ))
    {e : List String × ℚ} (he : e.1 = []) :
    normStep total acc e = .error .indexError := by
  unfold normStep
  rw [he]

theorem normStep_zero (acc : List (String × ℚ)) {e : List String × ℚ}
    {q : String} {ks : List String} (he : e.1 = q :: ks) :
    normStep 0 acc e = .error .divByZero := by
  unfold normStep
  rw [he]
  exact if_pos rfl

theorem normStep_ok {total : ℚ} (hT : total ≠ 0) (acc : List (String × ℚ))
    {e : List String × ℚ} {q : String} {ks : List String} (he : e.1 = q :: ks) :
    normStep total acc e = .ok (dset acc q (e.2 / total)) := by
  unfold normStep
  rw [he]
  exact if_neg hT

theorem normalize_zero_not_ok {cpt : List (List String × ℚ)} {r : List (String × ℚ)}
    (hcpt : cpt ≠ []) (hok : normalize cpt 0 = .ok r) : False := by
  cases cpt with
  | nil => exact hcpt rfl
  | cons e rest =>
    unfold normalize at hok
    rw [List.foldlM_cons] at hok
    cases he : e.1 with
    | nil =>
      rw [normStep_nil_key [] he] at hok
      exact Except.noConfusion (show (Except.error PyErr.indexError :
        Except PyErr (List (String × ℚ))) = _ from hok)
    | cons q ks =>
      rw [normStep_zero [] he] at hok
      exact Except.noConfusion (show (Except.error PyErr.divByZero :
        Except PyErr (List (String × ℚ))) = _ from hok)

theorem normalize_fold_ok {total : ℚ} (hT : total ≠ 0) :
    ∀ cpt : List (List String × ℚ),
      (∀ e ∈ cpt, ∃ q, e.1 = [q]) →
      ((cpt.map (fun e => e.1)).Nodup) →
      ∀ acc : List (String × ℚ),
        ∃ res, cpt.foldlM (normStep total) acc = .ok res ∧
        ∀ q, dget res q =
          match dget cpt [q] with
          | some w => some (w / total)
          | none => dget acc q := by
  intro cpt
  induction cpt with
  | nil =>
    intro _ _ acc
    exact ⟨acc, rfl, fun q => by simp [dget]⟩
  | cons e rest ih =>
    intro har hnd acc
    obtain ⟨q0, hq0⟩ := har e (List.mem_cons_self _ _)
    obtain ⟨hend, hrnd⟩ := List.nodup_cons.mp hnd
    obtain ⟨res, hres, hget⟩ := ih
      (fun e2 he2 => har e2 (List.mem_cons_of_mem _ he2)) hrnd
      (dset acc q0 (e.2 / total))
    refine ⟨res, ?_, ?_⟩
    · rw [List.foldlM_cons, normStep_ok hT acc hq0]
      exact hres
    · intro q
      rw [hget q, dget_cons]
      by_cases hq : q = q0
      · subst hq
        rw [if_pos hq0]
        have hnone : dget rest [q] = none :=
          (dget_eq_none_iff rest [q]).mpr (hq0 ▸ hend)
        rw [hnone, dget_dset, if_pos rfl]
      · have hne : ¬ e.1 = [q] := by
          rw [hq0]
          intro hh
          exact hq ((List.cons_eq_cons.mp hh).1).symm
        rw [if_neg hne]
        cases hdget : dget rest [q] with
        | some w => rfl
        | none =>
          rw [dget_dset, if_neg (fun hh => hq hh.symm)]

end InferLemmas

section MainAssembly

theorem infer_of_run {factors : List Factor} {Qv : String}
    {E : List (String × String)} {order : List String} {g0 : Factor}
    {rest : List Factor} (hrun : runElim factors E order = .ok (g0 :: rest)) :
    infer factors Qv E order =
      normalize (rest.foldl multiply_factors g0).cpt
        (sumValues (rest.foldl multiply_factors g0).cpt) := by
  unfold infer
  rw [hrun]
  rfl

theorem hiddenVars_mem (factors : List Factor) (Qv : String) (v : String) :
    v ∈ hiddenVars factors Qv [] ↔ (v ∈ varsOfL factors ∧ v ≠ Qv) := by
  unfold hiddenVars
  rw [List.mem_filter, List.mem_dedup]
  simp [dget]

theorem hiddenVars_nodup (factors : List Factor) (Qv : String)
    (E : List (String × String)) : (hiddenVars factors Qv E).Nodup :=
  (List.nodup_dedup _).filter _

theorem infer_order_independent_core {factors : List Factor} {Qv : String}
    {o1 o2 : List String} {r1 : List (String × ℚ)}
    (hwf : ∀ f ∈ factors, WF f)
    (hQ : Qv ∈ varsOfL factors)
    (h1 : o1.Perm (hiddenVars factors Qv []))
    (h2 : o2.Perm (hiddenVars factors Qv []))
    (hok : infer factors Qv [] o1 = .ok r1)
    (hne : r1 ≠ []) :
    ∃ r2, infer factors Qv [] o2 = .ok r2 ∧
      ∀ q, getValue r1 q = getValue r2 q := by
  have hHnd : (hiddenVars factors Qv []).Nodup := hiddenVars_nodup factors Qv []
  have ho1nd : o1.Nodup := h1.nodup_iff.mpr hHnd
  have ho2nd : o2.Nodup := h2.nodup_iff.mpr hHnd
  have ho1mem : ∀ v, v ∈ o1 ↔ (v ∈ varsOfL factors ∧ v ≠ Qv) :=
    fun v => h1.mem_iff.trans (hiddenVars_mem factors Qv v)
  have ho2mem : ∀ v, v ∈ o2 ↔ (v ∈ varsOfL factors ∧ v ≠ Qv) :=
    fun v => h2.mem_iff.trans (hiddenVars_mem factors Qv v)
  have hObs : ∀ f ∈ factors, ∀ w, ObsLE f w (obsSet factors w) :=
    fun f hf w => ObsLE_obsSet hf w
  have hred : ∀ o : List String, runElim factors [] o = o.foldlM elimStep factors := by
    intro o
    unfold runElim
    rw [map_reduce_empty hwf]
  have hfne : factors ≠ [] := by
    intro hf
    rw [hf] at hQ
    simp [varsOfL] at hQ
  obtain ⟨fs1, hrun1⟩ := run_ok (fun v => obsSet factors v) o1 factors ho1nd hwf hObs
    (fun v hv => ((ho1mem v).mp hv).1)
  obtain ⟨fs2, hrun2⟩ := run_ok (fun v => obsSet factors v) o2 factors ho2nd hwf hObs
    (fun v hv => ((ho2mem v).mp hv).1)
  obtain ⟨heval1, hWF1, hne1, hvars1⟩ :=
    runFold_eval (fun v => obsSet factors v) o1 factors fs1 hrun1 ho1nd hwf hObs
  obtain ⟨heval2, hWF2, hne2, hvars2⟩ :=
    runFold_eval (fun v => obsSet factors v) o2 factors fs2 hrun2 ho2nd hwf hObs
  obtain ⟨g1, rest1, rfl⟩ : ∃ g r, fs1 = g :: r := by
    cases fs1 with
    | nil => exact absurd rfl (hne1 hfne)
    | cons g r => exact ⟨g, r, rfl⟩
  obtain ⟨g2, rest2, rfl⟩ : ∃ g r, fs2 = g :: r := by
    cases fs2 with
    | nil => exact absurd rfl (hne2 hfne)
    | cons g r => exact ⟨g, r, rfl⟩
  have hevalF1 : ∀ a, evalF (rest1.foldl multiply_factors g1) a =
      prodEval (g1 :: rest1) a := by
    intro a
    rw [evalF_foldl_multiply]
    simp [prodEval]
  have hevalF2 : ∀ a, evalF (rest2.foldl multiply_factors g2) a =
      prodEval (g2 :: rest2) a := by
    intro a
    rw [evalF_foldl_multiply]
    simp [prodEval]
  have hpt : ∀ a, evalF (rest1.foldl multiply_factors g1) a =
      evalF (rest2.foldl multiply_factors g2) a := by
    intro a
    rw [hevalF1 a, hevalF2 a, heval1 a, heval2 a]
    exact sumOver_perm _ (h1.trans h2.symm) _ a
  have hWFF1 : WF (rest1.foldl multiply_factors g1) :=
    WF_foldl_multiply (hWF1 g1 (List.mem_cons_self _ _))
  have hWFF2 : WF (rest2.foldl multiply_factors g2) :=
    WF_foldl_multiply (hWF2 g2 (List.mem_cons_self _ _))
  have hscope1 : (rest1.foldl multiply_factors g1).vars = [Qv] := by
    refine eq_singleton_of_nodup hWFF1.1 ?_
    intro w
    rw [show (w ∈ (rest1.foldl multiply_factors g1).vars ↔
        w ∈ varsOfL (g1 :: rest1)) from by
      rw [mem_vars_foldl_multiply]
      unfold varsOfL
      rw [List.mem_flatMap]
      constructor
      · rintro (h | ⟨f, hf, h⟩)
        · exact ⟨g1, List.mem_cons_self _ _, h⟩
        · exact ⟨f, List.mem_cons_of_mem _ hf, h⟩
      · rintro ⟨f, hf, h⟩
        rcases List.mem_cons.mp hf with rfl | hf'
        · exact Or.inl h
        · exact Or.inr ⟨f, hf', h⟩]
    rw [hvars1 w]
    constructor
    · rintro ⟨hwv, hwo⟩
      by_contra hwq
      exact hwo ((ho1mem w).mpr ⟨hwv, hwq⟩)
    · intro hwq
      refine ⟨by rw [hwq]; exact hQ, fun hh => ?_⟩
      exact ((ho1mem w).mp hh).2 hwq
  have hscope2 : (rest2.foldl multiply_factors g2).vars = [Qv] := by
    refine eq_singleton_of_nodup hWFF2.1 ?_
    intro w
    rw [show (w ∈ (rest2.foldl multiply_factors g2).vars ↔
        w ∈ varsOfL (g2 :: rest2)) from by
      rw [mem_vars_foldl_multiply]
      unfold varsOfL
      rw [List.mem_flatMap]
      constructor
      · rintro (h | ⟨f, hf, h⟩)
        · exact ⟨g2, List.mem_cons_self _ _, h⟩
        · exact ⟨f, List.mem_cons_of_mem _ hf, h⟩
      · rintro ⟨f, hf, h⟩
        rcases List.mem_cons.mp hf with rfl | hf'
        · exact Or.inl h
        · exact Or.inr ⟨f, hf', h⟩]
    rw [hvars2 w]
    constructor
    · rintro ⟨hwv, hwo⟩
      by_contra hwq
      exact hwo ((ho2mem w).mpr ⟨hwv, hwq⟩)
    · intro hwq
      refine ⟨by rw [hwq]; exact hQ, fun hh => ?_⟩
      exact ((ho2mem w).mp hh).2 hwq
  have harity1 : ∀ e ∈ (rest1.foldl multiply_factors g1).cpt, ∃ q, e.1 = [q] := by
    intro e he
    have hl := hWFF1.2.2 e he
    rw [hscope1] at hl
    exact List.length_eq_one.mp hl
  have harity2 : ∀ e ∈ (rest2.foldl multiply_factors g2).cpt, ∃ q, e.1 = [q] := by
    intro e he
    have hl := hWFF2.2.2 e he
    rw [hscope2] at hl
    exact List.length_eq_one.mp hl
  have hdg : ∀ q, dgetD (rest1.foldl multiply_factors g1).cpt [q] 0 =
      dgetD (rest2.foldl multiply_factors g2).cpt [q] 0 := by
    intro q
    have h := hpt (fun _ => q)
    unfold evalF at h
    rw [hscope1, hscope2] at h
    simpa using h
  have hT1 : ∀ e ∈ (rest1.foldl multiply_factors g1).cpt, ∀ q, e.1 = [q] →
      q ∈ ((rest1.foldl multiply_factors g1).cpt.map (fun e => e.1.headI)).toFinset ∪
          ((rest2.foldl multiply_factors g2).cpt.map (fun e => e.1.headI)).toFinset := by
    intro e he q hq
    refine Finset.mem_union_left _ ?_
    rw [List.mem_toFinset]
    refine List.mem_map.mpr ⟨e, he, ?_⟩
    rw [hq]
    rfl
  have hT2 : ∀ e ∈ (rest2.foldl multiply_factors g2).cpt, ∀ q, e.1 = [q] →
      q ∈ ((rest1.foldl multiply_factors g1).cpt.map (fun e => e.1.headI)).toFinset ∪
          ((rest2.foldl multiply_factors g2).cpt.map (fun e => e.1.headI)).toFinset := by
    intro e he q hq
    refine Finset.mem_union_right _ ?_
    rw [List.mem_toFinset]
    refine List.mem_map.mpr ⟨e, he, ?_⟩
    rw [hq]
    rfl
  have htot1 := sumValues_eq_sum (rest1.foldl multiply_factors g1).cpt
    hWFF1.2.1 harity1 hT1
  have htot2 := sumValues_eq_sum (rest2.foldl multiply_factors g2).cpt
    hWFF2.2.1 harity2 hT2
  have htoteq : sumValues (rest1.foldl multiply_factors g1).cpt =
      sumValues (rest2.foldl multiply_factors g2).cpt := by
    rw [htot1, htot2]
    exact Finset.sum_congr rfl (fun q _ => hdg q)
  have hinf1 : infer factors Qv [] o1 =
      normalize (rest1.foldl multiply_factors g1).cpt
        (sumValues (rest1.foldl multiply_factors g1).cpt) :=
    infer_of_run (by rw [hred o1]; exact hrun1)
  have hinf2 : infer factors Qv [] o2 =
      normalize (rest2.foldl multiply_factors g2).cpt
        (sumValues (rest2.foldl multiply_factors g2).cpt) :=
    infer_of_run (by rw [hred o2]; exact hrun2)
  rw [hinf1] at hok
  have htne : sumValues (rest1.foldl multiply_factors g1).cpt ≠ 0 := by
    intro h0
    rw [h0] at hok
    cases hc : (rest1.foldl multiply_factors g1).cpt with
    | nil =>
      rw [hc] at hok
      exact hne (Except.ok.inj hok).symm
    | cons e cr =>
      exact normalize_zero_not_ok (by rw [hc]; simp) hok
  have htne2 : sumValues (rest2.foldl multiply_factors g2).cpt ≠ 0 :=
    htoteq ▸ htne
  obtain ⟨res1, hres1, hget1⟩ := normalize_fold_ok htne
    (rest1.foldl multiply_factors g1).cpt harity1 hWFF1.2.1 []
  obtain ⟨res2, hres2, hget2⟩ := normalize_fold_ok htne2
    (rest2.foldl multiply_factors g2).cpt harity2 hWFF2.2.1 []
  have hr1 : r1 = res1 := by
    have h := hok.symm.trans hres1
    exact Except.ok.inj h
  refine ⟨res2, by rw [hinf2]; exact hres2, ?_⟩
  intro q
  rw [hr1]
  unfold getValue dgetD
  rw [hget1 q, hget2 q]
  have hd := hdg q
  unfold dgetD at hd
  cases hd1 : dget (rest1.foldl multiply_factors g1).cpt [q] with
  | some w1 =>
    cases hd2 : dget (rest2.foldl multiply_factors g2).cpt [q] with
    | some w2 =>
      rw [hd1, hd2] at hd
      simp only [Option.getD_some] at hd
      simp only [Option.getD_some]
      rw [hd, htoteq]
    | none =>
      rw [hd1, hd2] at hd
      simp only [Option.getD_some, Option.getD_none] at hd
      simp only [Option.getD_some, dget, Option.getD_none]
      rw [hd]
      simp
  | none =>
    cases hd2 : dget (rest2.foldl multiply_factors g2).cpt [q] with
    | some w2 =>
      rw [hd1, hd2] at hd
      simp only [Option.getD_some, Option.getD_none] at hd
      simp only [Option.getD_some, dget, Option.getD_none]
      rw [← hd]
      simp
    | none =>
      simp [dget]

end MainAssembly

section ClaimSupport

theorem mem_observedVals {f : Factor} {v x : String} :
    x ∈ observedVals f v ↔ ∃ e ∈ f.cpt, (v, x) ∈ f.vars.zip e.1 := by
  unfold observedVals
  rw [List.mem_flatMap]
  constructor
  · rintro ⟨e, he, hx⟩
    obtain ⟨p, hp, hpx⟩ := List.mem_filterMap.mp hx
    refine ⟨e, he, ?_⟩
    by_cases h : p.1 = v
    · rw [if_pos h] at hpx
      have hx2 : p.2 = x := Option.some.inj hpx
      have hp' : p = (v, x) := by rw [← h, ← hx2]
      exact hp' ▸ hp
    · rw [if_neg h] at hpx
      exact absurd hpx (by simp)
  · rintro ⟨e, he, hx⟩
    refine ⟨e, he, List.mem_filterMap.mpr ⟨(v, x), hx, ?_⟩⟩
    simp

theorem reduceFold_consistent {scope : List String} {E : List (String × String)}
    (l : List (List String × ℚ)) :
    ∀ acc : List (List String × ℚ),
      (∀ x ∈ acc, evConsistent scope E x.1 = true) →
      ∀ x ∈ l.foldl (fun acc e =>
          if evConsistent scope E e.1 then dset acc e.1 e.2 else acc) acc,
        evConsistent scope E x.1 = true := by
  induction l with
  | nil => intro acc hacc; exact hacc
  | cons e rest ih =>
    intro acc hacc
    rw [List.foldl_cons]
    by_cases hc : evConsistent scope E e.1 = true
    · rw [if_pos hc]
      refine ih _ ?_
      intro x hx
      rcases mem_dset hx with hx' | hx'
      · exact hacc x hx'
      · rw [hx']
        exact hc
    · rw [if_neg hc]
      exact ih _ hacc

theorem reduce_of_consistent {f : Factor} {E : List (String × String)}
    (h : ∀ x ∈ f.cpt, evConsistent f.vars E x.1 = true)
    (hnd : (f.cpt.map (fun e => e.1)).Nodup) : reduceFactor f E = f := by
  rw [reduceFactor_eq]
  have hfold : ∀ (l : List (List String × ℚ)) (acc : List (List String × ℚ)),
      (∀ x ∈ l, evConsistent f.vars E x.1 = true) →
      l.foldl (fun acc e =>
        if evConsistent f.vars E e.1 then dset acc e.1 e.2 else acc) acc =
      l.foldl (fun acc e => dset acc e.1 e.2) acc := by
    intro l
    induction l with
    | nil => intro acc _; rfl
    | cons e rest ih =>
      intro acc hl
      rw [List.foldl_cons, List.foldl_cons, if_pos (hl e (List.mem_cons_self _ _))]
      exact ih _ (fun x hx => hl x (List.mem_cons_of_mem _ hx))
  rw [hfold f.cpt [] h, foldl_dset_rebuild hnd [] (by simp)]
  simp only [List.nil_append]

end ClaimSupport

/-! ## The claims -/

section Claims

/-- Claim C2: `multiply_factors f1 f2` returns a factor whose scope is the sorted
union of the two scopes; its table assigns to every joint assignment over the union
scope (per-variable domains = the union of values observed for the variable across the
two input tables) the product of the two factors' lookups at the projected keys, with
a key absent from an input table contributing weight `0` rather than crashing. -/
theorem C2_multiply_factors_product_spec (f1 f2 : Factor) :
    (multiply_factors f1 f2).vars = sortedDedup (f1.vars ++ f2.vars) ∧
    (∀ a : String → String,
      dgetD (multiply_factors f1 f2).cpt ((multiply_factors f1 f2).vars.map a) 0 =
        dgetD f1.cpt (f1.vars.map a) 0 * dgetD f2.cpt (f2.vars.map a) 0) ∧
    (∀ a : String → String,
      (∀ v ∈ (multiply_factors f1 f2).vars,
        a v ∈ observedVals f1 v ∨ a v ∈ observedVals f2 v) →
      (multiply_factors f1 f2).vars.map a ∈
        (multiply_factors f1 f2).cpt.map (fun e => e.1)) := by
  refine ⟨rfl, fun a => evalF_multiply f1 f2 a, ?_⟩
  intro a ha
  have hkeys : (multiply_factors f1 f2).cpt.map (fun e => e.1) = mulGrid f1 f2 := by
    have hcpt : (multiply_factors f1 f2).cpt = (mulGrid f1 f2).map (fun k =>
        (k, dgetD f1.cpt (projKey (mulVars f1 f2) k f1.vars) 0 *
            dgetD f2.cpt (projKey (mulVars f1 f2) k f2.vars) 0)) := rfl
    rw [hcpt, List.map_map]
    have hcomp : ((fun (e : List String × ℚ) => e.1) ∘ (fun k =>
        (k, dgetD f1.cpt (projKey (mulVars f1 f2) k f1.vars) 0 *
            dgetD f2.cpt (projKey (mulVars f1 f2) k f2.vars) 0))) =
          fun k => k := rfl
    rw [hcomp, List.map_id']
  rw [hkeys]
  show (mulVars f1 f2).map a ∈ mulGrid f1 f2
  rw [map_mem_mulGrid]
  intro v hv
  rcases ha v hv with h | h
  · exact mem_varDoms_self (Or.inl (mem_observedVals.mp h))
  · exact mem_varDoms_self (Or.inr (mem_observedVals.mp h))

theorem C2_multiply_factors_product_spec_witness :
    (multiply_factors (Factor.mk ["A"] [(["a1"], 1/2)])
        (Factor.mk ["A", "B"] [(["a1", "b1"], 1/3)])).vars =
      sortedDedup ((Factor.mk ["A"] [(["a1"], (1 : ℚ)/2)]).vars ++
        (Factor.mk ["A", "B"] [(["a1", "b1"], (1 : ℚ)/3)]).vars) ∧
    dgetD (multiply_factors (Factor.mk ["A"] [(["a1"], 1/2)])
        (Factor.mk ["A", "B"] [(["a1", "b1"], 1/3)])).cpt
      ((multiply_factors (Factor.mk ["A"] [(["a1"], 1/2)])
        (Factor.mk ["A", "B"] [(["a1", "b1"], 1/3)])).vars.map
          (fun v => if v = "B" then "b1" else "a1")) 0 =
      dgetD (Factor.mk ["A"] [(["a1"], (1 : ℚ)/2)]).cpt ["a1"] 0 *
      dgetD (Factor.mk ["A", "B"] [(["a1", "b1"], (1 : ℚ)/3)]).cpt ["a1", "b1"] 0 ∧
    (multiply_factors (Factor.mk ["A"] [(["a1"], 1/2)])
        (Factor.mk ["A", "B"] [(["a1", "b1"], 1/3)])).vars.map
          (fun v => if v = "B" then "b1" else "a1") ∈
      (multiply_factors (Factor.mk ["A"] [(["a1"], 1/2)])
        (Factor.mk ["A", "B"] [(["a1", "b1"], 1/3)])).cpt.map (fun e => e.1) := by
  refine ⟨(C2_multiply_factors_product_spec _ _).1, ?_, ?_⟩
  · have h := (C2_multiply_factors_product_spec (Factor.mk ["A"] [(["a1"], 1/2)])
      (Factor.mk ["A", "B"] [(["a1", "b1"], 1/3)])).2.1
      (fun v => if v = "B" then "b1" else "a1")
    simpa using h
  · exact (C2_multiply_factors_product_spec _ _).2.2
      (fun v => if v = "B" then "b1" else "a1")
      (of_decide_eq_true (by with_unfolding_all rfl))

/-- Claim C3: for `v` not in the scope, `sum_out f v` is `f` unchanged; otherwise the
new scope is the old scope with `v` removed (relative order preserved) and the new
table maps each projected key (the old key with the component at `v`'s first position
dropped) to the sum of the old entries sharing that projection, accumulating from 0. -/
theorem C3_sum_out_marginalisation_spec (f : Factor) (v : String) :
    (v ∉ f.vars → sum_out f v = f) ∧
    (v ∈ f.vars →
      (sum_out f v).vars = f.vars.filter (fun w => w ≠ v) ∧
      ∀ p : List String,
        dgetD (sum_out f v).cpt p 0 =
          ((f.cpt.filter (fun e =>
            decide (e.1.eraseIdx (List.indexOf v f.vars) = p))).map
              (fun e => e.2)).sum) := by
  constructor
  · exact sum_out_not_mem
  · intro hv
    constructor
    · rw [sum_out_eq hv]
    · intro p
      rw [sum_out_eq hv]
      show dgetD (f.cpt.foldl (fun acc e =>
          dset acc (e.1.eraseIdx (List.indexOf v f.vars))
            (dgetD acc (e.1.eraseIdx (List.indexOf v f.vars)) 0 + e.2)) []) p 0 = _
      rw [dgetD_sumFold (fun k => k.eraseIdx (List.indexOf v f.vars)) f.cpt p []]
      simp [dgetD, dget]

theorem C3_sum_out_marginalisation_spec_witness :
    sum_out (Factor.mk ["A", "B"] [(["a1", "b1"], 1/2), (["a2", "b1"], 1/4)]) "Z" =
      Factor.mk ["A", "B"] [(["a1", "b1"], 1/2), (["a2", "b1"], 1/4)] ∧
    (sum_out (Factor.mk ["A", "B"] [(["a1", "b1"], 1/2), (["a2", "b1"], 1/4)]) "A").vars =
      (Factor.mk ["A", "B"] [(["a1", "b1"], (1 : ℚ)/2), (["a2", "b1"], 1/4)]).vars.filter
        (fun w => w ≠ "A") ∧
    dgetD (sum_out (Factor.mk ["A", "B"]
        [(["a1", "b1"], 1/2), (["a2", "b1"], 1/4)]) "A").cpt ["b1"] 0 =
      (((Factor.mk ["A", "B"] [(["a1", "b1"], (1 : ℚ)/2), (["a2", "b1"], 1/4)]).cpt.filter
        (fun e => decide (e.1.eraseIdx (List.indexOf "A"
          (Factor.mk ["A", "B"] [(["a1", "b1"], (1 : ℚ)/2), (["a2", "b1"], 1/4)]).vars) =
            ["b1"]))).map (fun e => e.2)).sum :=
  ⟨(C3_sum_out_marginalisation_spec _ "Z").1 (by decide),
   ((C3_sum_out_marginalisation_spec _ "A").2 (by decide)).1,
   ((C3_sum_out_marginalisation_spec _ "A").2 (by decide)).2 ["b1"]⟩

/-- Claim C10: summing a scope variable out of a factor preserves the total weight of
the table. -/
theorem C10_sum_out_preserves_total (f : Factor) (v : String) (hv : v ∈ f.vars) :
    sumValues (sum_out f v).cpt = sumValues f.cpt := by
  rw [sum_out_eq hv]
  show sumValues (f.cpt.foldl (fun acc e =>
      dset acc (e.1.eraseIdx (List.indexOf v f.vars))
        (dgetD acc (e.1.eraseIdx (List.indexOf v f.vars)) 0 + e.2)) []) = _
  unfold sumValues
  rw [sum_sumFold (fun k => k.eraseIdx (List.indexOf v f.vars)) f.cpt []]
  simp

theorem C10_sum_out_preserves_total_witness :
    sumValues (sum_out (Factor.mk ["A", "B"]
        [(["a1", "b1"], 1/2), (["a2", "b1"], 1/4)]) "B").cpt =
      sumValues (Factor.mk ["A", "B"]
        [(["a1", "b1"], (1 : ℚ)/2), (["a2", "b1"], 1/4)]).cpt :=
  C10_sum_out_preserves_total _ "B" (by decide)

/-- Claim C8: reducing a factor by the same evidence twice yields the same factor as
reducing once. -/
theorem C8_evidence_reduction_idempotent (f : Factor) (E : List (String × String)) :
    reduceFactor (reduceFactor f E) E = reduceFactor f E := by
  refine reduce_of_consistent ?_ (keys_reduce_nodup f E)
  intro x hx
  rw [reduceFactor_eq] at hx
  exact reduceFold_consistent f.cpt [] (by simp) x hx

/-- Claim C1 (amended): the claim as stated is FALSE for nonzero evidence (see the
counterexample below), because evidence variables are never removed from factor
scopes and `{key[0]: val/total}` then reads the evidence variable's value instead of
the query's.  Amended claim: with EMPTY evidence, for any well-formed factors whose
variables include the query `Qv`, any two elimination orders that are permutations of
the hidden variables (all variables except `Qv`) give the same result: if one order
succeeds with a nonempty distribution, the other succeeds with a distribution
assigning the same value to every key. -/
theorem C1_order_independence_amended (factors : List Factor) (Qv : String)
    (o1 o2 : List String) (r1 : List (String × ℚ))
    (hwf : ∀ f ∈ factors, WF f) (hQ : Qv ∈ varsOfL factors)
    (h1 : o1.Perm (hiddenVars factors Qv []))
    (h2 : o2.Perm (hiddenVars factors Qv []))
    (hok : infer factors Qv [] o1 = .ok r1) (hne : r1 ≠ []) :
    ∃ r2, infer factors Qv [] o2 = .ok r2 ∧ ∀ q, getValue r1 q = getValue r2 q :=
  infer_order_independent_core hwf hQ h1 h2 hok hne

theorem C1_order_independence_amended_witness :
    ∃ r2, infer demoFactors "L" [] ["G", "I", "D"] = .ok r2 ∧
      ∀ q, getValue [("Fuerte", (13 : ℚ)/20), ("Débil", (7 : ℚ)/20)] q = getValue r2 q :=
  C1_order_independence_amended demoFactors "L" ["D", "I", "G"] ["G", "I", "D"]
    [("Fuerte", 13/20), ("Débil", 7/20)]
    (by decide) (by decide) (by decide) (by decide)
    (by with_unfolding_all rfl) (by decide)

/-- Claim C1, counterexample to the original statement: on `orderDepFactors` with
evidence `A = a` (whose total probability is nonzero: both runs below succeed with a
nonzero normalizer), the two valid elimination orders `["X", "Y"]` and `["Y", "X"]` —
each a permutation of the hidden variables, computed here to be `["X", "Y"]` — return
different distributions: `7/10` versus `3/10` at key `"a"`. -/
theorem C1_order_dependence_counterexample :
    hiddenVars orderDepFactors "Q" [("A", "a")] = ["X", "Y"] ∧
    (["X", "Y"] : List String).Perm ["X", "Y"] ∧
    (["Y", "X"] : List String).Perm ["X", "Y"] ∧
    infer orderDepFactors "Q" [("A", "a")] ["X", "Y"] = .ok [("a", 7/10)] ∧
    infer orderDepFactors "Q" [("A", "a")] ["Y", "X"] = .ok [("a", 3/10)] ∧
    getValue [("a", (7 : ℚ)/10)] "a" ≠ getValue [("a", (3 : ℚ)/10)] "a" := by
  refine ⟨by decide, by decide, by decide, by with_unfolding_all rfl,
    by with_unfolding_all rfl, ?_⟩
  show (7 : ℚ)/10 ≠ (3 : ℚ)/10
  norm_num

/-- Claim C4 (code bug): on the module's own demo call — query `L`, evidence
`G = A`, order `["D", "I"]` — `infer` returns the single-key table
`{"A" ↦ 413/1490}` whose values sum to `413/1490 ≠ 1`: because the evidence
variable `G` survives in the final factor's scope, `{key[0]: val/total}` keys the
result by `G`'s value and the two query values collapse into one entry, so the
returned distribution does not sum to 1 even though the evidence is non-degenerate
(the normalizer `total` is nonzero, as the `.ok` result shows). -/
theorem C4_result_not_normalized :
    infer demoFactors "L" [("G", "A")] ["D", "I"] = .ok [("A", 413/1490)] ∧
    (([("A", (413 : ℚ)/1490)] : List (String × ℚ)).map (fun e => e.2)).sum ≠ 1 := by
  constructor
  · with_unfolding_all rfl
  · show ((413 : ℚ)/1490 + 0) ≠ 1
    norm_num

/-- Claim C5 (code bug): eliminating a variable absent from every working factor is
NOT skipped: `factors_with_var[0]` indexes an empty list and raises `IndexError`.
Here the order `["Z", "D", "I"]` contains `Z`, which appears in no factor. -/
theorem C5_absent_variable_raises :
    infer demoFactors "L" [("G", "A")] ["Z", "D", "I"] = .error .indexError := by
  with_unfolding_all rfl

/-- Claim C6 (amended): the code does not raise a distinct, dedicated error on
zero-probability evidence.  What actually happens when the final factor's entries
sum to zero depends on its table: if the table is empty (all rows were dropped by
evidence reduction), `infer` silently returns the empty mapping `{}`; if the table
has a row with a nonempty key, the comprehension divides by the zero total and
raises `ZeroDivisionError`.  So the zero-total case is never coerced to NaN or 0,
but the empty-table route is a silent default rather than a reported error. -/
theorem C6_zero_total_dichotomy (factors : List Factor) (Qv : String)
    (E : List (String × String)) (O : List String) (g0 : Factor) (rest : List Factor)
    (hrun : runElim factors E O = .ok (g0 :: rest))
    (htot : sumValues (rest.foldl multiply_factors g0).cpt = 0) :
    ((rest.foldl multiply_factors g0).cpt = [] →
      infer factors Qv E O = .ok []) ∧
    (∀ (k : List String) (val : ℚ) (tail : List (List String × ℚ)),
      (rest.foldl multiply_factors g0).cpt = (k, val) :: tail → k ≠ [] →
      infer factors Qv E O = .error .divByZero) := by
  constructor
  · intro hnil
    rw [infer_of_run hrun, hnil]
    rfl
  · intro k val tail hcpt hk
    rw [infer_of_run hrun]
    rw [hcpt] at htot ⊢
    obtain ⟨q, ks, rfl⟩ : ∃ q ks, k = q :: ks := by
      cases k with
      | nil => exact absurd rfl hk
      | cons q ks => exact ⟨q, ks, rfl⟩
    rw [htot]
    unfold normalize
    rw [List.foldlM_cons, normStep_zero [] rfl]
    rfl

theorem C6_zero_total_dichotomy_witness :
    infer zeroWeightFactors "Q" [] [] = .error .divByZero :=
  (C6_zero_total_dichotomy zeroWeightFactors "Q" [] []
      (Factor.mk ["Q"] [(["q1"], 0)]) []
      (by with_unfolding_all rfl) (by with_unfolding_all rfl)).2
    ["q1"] 0 [] (by with_unfolding_all rfl) (by decide)

/-- Claim C6, counterexample to the original statement: on `zeroEvFactors` with the
zero-probability evidence `E = e2` (the run keeps factor scopes but empties the
second factor's table, and the final product's total weight is `0`), `infer`
silently returns the empty mapping `.ok []` instead of reporting a distinct error
condition. -/
theorem C6_zero_evidence_silent_empty :
    runElim zeroEvFactors [("E", "e2")] [] =
      .ok [Factor.mk ["Q"] [(["q1"], 3/5), (["q2"], 2/5)], Factor.mk ["E", "Q"] []] ∧
    sumValues (multiply_factors (Factor.mk ["Q"] [(["q1"], 3/5), (["q2"], 2/5)])
      (Factor.mk ["E", "Q"] [])).cpt = 0 ∧
    infer zeroEvFactors "Q" [("E", "e2")] [] = .ok [] := by
  refine ⟨?_, ?_, ?_⟩ <;> with_unfolding_all rfl

/-- Claim C7 (code bug): `infer` performs no validation of the elimination order.
With the malformed order `["D"]` (the hidden variable `I` is missing), the call does
not fail fast: it completes and returns a silently wrong mapping `{"A" ↦ 161/1490}`
(compare `413/1490` for the full order `["D", "I"]` in the claim C4 theorem). -/
theorem C7_no_fail_fast_on_malformed_order :
    infer demoFactors "L" [("G", "A")] ["D"] = .ok [("A", 161/1490)] := by
  with_unfolding_all rfl

/-- Claim C9 (amended): the enumeration engine on the alarm network returns the
posterior `P(Robo=Si | JuanLlama=Si) = 1715/118598 ≈ 0.01446` — the exact value
derivable by hand from the tables — which is NOT approximately `0.0174` (the
counterexample below shows the gap exceeds `0.002`); it is approximately `0.0145`,
lying strictly between `0.0144` and `0.0146`. -/
theorem C9_alarm_posterior_value :
    Enum.consultar Enum.alarma "Robo" [("JuanLlama", "Si")] =
      some [("Si", 1715/118598), ("No", 116883/118598)] ∧
    (144 : ℚ)/10000 < 1715/118598 ∧ (1715 : ℚ)/118598 < 146/10000 := by
  refine ⟨by with_unfolding_all rfl, by norm_num, by norm_num⟩

/-- Claim C9, counterexample to the original statement: the engine's posterior
`P(Robo=Si | JuanLlama=Si)` is `1715/118598`, and `0.0174` differs from it by more
than `0.002`, so the returned value is not "approximately 0.0174" under any
reasonable reading of approximation for a quantity of this magnitude. -/
theorem C9_alarm_posterior_not_0_0174 :
    Enum.consultar Enum.alarma "Robo" [("JuanLlama", "Si")] =
      some [("Si", 1715/118598), ("No", 116883/118598)] ∧
    (174 : ℚ)/10000 - 1715/118598 > 2/1000 := by
  refine ⟨by with_unfolding_all rfl, by norm_num⟩

end Claims

end VE
